import Mathlib

/-!
# mysh: tokenizer, parser, line controller and process orchestrator

A shallow embedding of `src/mysh.c`.  C strings are lists of characters.  The
fixed-size arrays the tokenizer and the parser fill are lists with the
capacity of the allocation: a store past the end is a result of its own
(`OutOfBounds`), after which the embedding says nothing.  The operating system
(pipe creation, program lookup, process creation, child termination) is an
explicit environment record; every system call the shell process makes inside
`execute_command` is recorded in a trace of events.
-/

namespace Mysh

/-! ## Constants and data model (mysh.c, lines 11-34) -/

def MAX_TOKENS : Nat := 256
def MAX_PIPES : Nat := 64
def BUFFER_SIZE : Nat := 1024

inductive TokenType where
  | TOKEN_WORD
  | TOKEN_PIPE
  | TOKEN_INPUT_REDIR
  | TOKEN_OUTPUT_REDIR
  | TOKEN_AND
  | TOKEN_OR
  deriving DecidableEq, Repr

open TokenType

/-- A C string: the characters before the terminating NUL. -/
abbrev CStr := List Char

structure Token where
  value : CStr
  type : TokenType
  deriving DecidableEq, Repr

/-- One pipeline stage.  `arg_count` of the C struct is `args.length`; a NULL
`input_file` / `output_file` is `none`. -/
structure Command where
  args : List CStr
  input_file : Option CStr
  output_file : Option CStr
  deriving DecidableEq, Repr

def Command.arg_count (c : Command) : Nat := c.args.length

/-! ## Fixed-size arrays

`token_array` has `MAX_TOKENS` entries (line 186), `cmd_array` has `MAX_PIPES`
stages (line 254), each `args` array has `MAX_TOKENS` pointers (lines 257 and
277) and `cond_type` has 4 bytes (line 100).  The source compares no index
with these sizes.  The arrays are lists here, and a store at an index outside
the allocation is recorded as such: what the program does after it is not
determined by the source, so the embedding stops there. -/

/-- A store outside a fixed-size array: the array and the index written (for
`cond_type`, the number of bytes `strcpy` writes). -/
inductive OutOfBounds where
  | token_array (index : Nat)
  | cmd_array (index : Nat)
  | args (stage : Nat) (index : Nat)
  | cond_type (bytes : Nat)
  deriving DecidableEq, Repr

deriving instance DecidableEq for Except

/-- The size of the buffer `cond_type` of `main` (line 100). -/
def COND_TYPE_SIZE : Nat := 4

/-! ## Tokenizer (mysh.c, lines 185-251) -/

/-- The C library `isspace` in the "C" locale: space, `\t`, `\n`, `\v`, `\f`, `\r`. -/
def isspace (c : Char) : Bool :=
  c == ' ' || c == '\t' || c == '\n' || c == '\x0b' || c == '\x0c' || c == '\r'

/-- The characters `strlen` sees: the buffer up to (not including) the first NUL. -/
def c_str (buffer : List Char) : CStr := buffer.takeWhile (fun c => c != '\x00')

def strlen (buffer : List Char) : Nat := (c_str buffer).length

/-- Line 192: `while (i < len && isspace(line[i])) i++;` on the rest of the line. -/
def skip_spaces (rest : List Char) : List Char := rest.dropWhile isspace

/-- The loop condition of line 225: the character continues a word. -/
def word_char (c : Char) : Bool :=
  !isspace c && c != '|' && c != '<' && c != '>' && c != '#'

/-- Lines 235-244: a word is classified by comparing it with "and" and "or". -/
def classify (word : CStr) : Token :=
  if word = "and".toList then
    { value := word, type := TOKEN_AND }
  else if word = "or".toList then
    { value := word, type := TOKEN_OR }
  else
    { value := word, type := TOKEN_WORD }

/-- The outer `while (i < len)` loop of `tokenize`.  `rest` is the line from
index `i` on, `acc` the tokens `token_array[0..count)`.  Each token is stored
at `token_array[count]`, which lies in the array only when `count <
MAX_TOKENS`.  Every iteration that does not leave the loop advances `i`, so
`len` iterations of fuel are enough (`tokenize_loop_fuel`). -/
def tokenize_loop : Nat → List Char → List Token → Except OutOfBounds (List Token)
  | 0, _, acc => .ok acc
  | fuel + 1, rest, acc =>
    match skip_spaces rest with
    | [] => .ok acc
    | c :: cs =>
      if c = '#' then .ok acc
      else if c = '|' then
        if acc.length < MAX_TOKENS then
          tokenize_loop fuel cs (acc ++ [{ value := "|".toList, type := TOKEN_PIPE }])
        else .error (.token_array acc.length)
      else if c = '<' then
        if acc.length < MAX_TOKENS then
          tokenize_loop fuel cs (acc ++ [{ value := "<".toList, type := TOKEN_INPUT_REDIR }])
        else .error (.token_array acc.length)
      else if c = '>' then
        if acc.length < MAX_TOKENS then
          tokenize_loop fuel cs (acc ++ [{ value := ">".toList, type := TOKEN_OUTPUT_REDIR }])
        else .error (.token_array acc.length)
      else
        let word := (c :: cs).takeWhile word_char
        let rest1 := (c :: cs).dropWhile word_char
        if 0 < word.length then
          if acc.length < MAX_TOKENS then
            tokenize_loop fuel rest1 (acc ++ [classify word])
          else .error (.token_array acc.length)
        else
          tokenize_loop fuel rest1 acc

/-- The function `tokenize`: the token array, whose length is the returned
`count`, or the store that left `token_array`. -/
def tokenize (line : List Char) : Except OutOfBounds (List Token) :=
  tokenize_loop (strlen line) (c_str line) []

/-! ## Parser (mysh.c, lines 253-328) -/

/-- What `parse_command` hands back: `-1` on a malformed redirection (the
character is the operator named in the message), the stage array with the two
flags and the copied conditional word, or the store that left an array. -/
inductive ParseResult where
  | error (op : Char)
  | ok (commands : List Command) (is_pipeline : Bool) (is_conditional : Bool)
      (cond_type : CStr)
  | out_of_bounds (write : OutOfBounds)
  deriving DecidableEq, Repr

/-- The C return value of `parse_command`, when the function returns one. -/
def ParseResult.ret : ParseResult → Option Int
  | .error _ => some (-1)
  | .ok commands _ _ _ => some (commands.length : Int)
  | .out_of_bounds _ => none

/-- Why the walk over the tokens stops early: a malformed redirection
(`return -1`) or a store outside an array. -/
inductive ParseStop where
  | redirect (op : Char)
  | out_of_bounds (write : OutOfBounds)
  deriving DecidableEq, Repr

/-- Lines 257-260 and 277-280: a freshly initialised stage. -/
def empty_command : Command := { args := [], input_file := none, output_file := none }

/-- The loop of lines 271-321 on the tokens from index `i` on.  `done` holds
`cmd_array[0..cmd_idx)`, `cur` is `cmd_array[cmd_idx]`, so `cmd_idx` is
`done.length`.  A Pipe stores the new stage at `cmd_array[cmd_idx + 1]`, a Word
stores its text at `args[arg_count]` of the current stage. -/
def parse_loop : List Token → List Command → Command → Bool →
    Except ParseStop (List Command × Bool)
  | [], done, cur, pl => .ok (done ++ [cur], pl)
  | t :: ts, done, cur, pl =>
    match t.type with
    | TOKEN_PIPE =>
      if done.length + 1 < MAX_PIPES then
        parse_loop ts (done ++ [cur]) empty_command true
      else .error (.out_of_bounds (.cmd_array (done.length + 1)))
    | TOKEN_INPUT_REDIR =>
      match ts with
      | [] => .error (.redirect '<')
      | n :: ts1 =>
        if n.type = TOKEN_WORD then
          parse_loop ts1 done { cur with input_file := some n.value } pl
        else .error (.redirect '<')
    | TOKEN_OUTPUT_REDIR =>
      match ts with
      | [] => .error (.redirect '>')
      | n :: ts1 =>
        if n.type = TOKEN_WORD then
          parse_loop ts1 done { cur with output_file := some n.value } pl
        else .error (.redirect '>')
    | TOKEN_WORD =>
      if cur.args.length < MAX_TOKENS then
        parse_loop ts done { cur with args := cur.args ++ [t.value] } pl
      else .error (.out_of_bounds (.args done.length cur.args.length))
    | TOKEN_AND => parse_loop ts done cur pl
    | TOKEN_OR => parse_loop ts done cur pl

/-- Lines 322-324: `cmd_array[j].args[cmd_array[j].arg_count] = NULL` for the
stages from index `j` on; the first of these stores that leaves its array. -/
def terminate_args : Nat → List Command → Option OutOfBounds
  | _, [] => none
  | j, c :: cs =>
    if c.args.length < MAX_TOKENS then terminate_args (j + 1) cs
    else some (.args j c.args.length)

/-- The end of `parse_command` (lines 322-327) after the walk. -/
def finish_parse (walk : Except ParseStop (List Command × Bool)) (is_conditional : Bool)
    (cond_type : CStr) : ParseResult :=
  match walk with
  | .error (.redirect op) => .error op
  | .error (.out_of_bounds w) => .out_of_bounds w
  | .ok (cmds, pl) =>
    match terminate_args 0 cmds with
    | some w => .out_of_bounds w
    | none => .ok cmds pl is_conditional cond_type

/-- The function `parse_command`.  Lines 262-267: a leading And/Or token sets
`is_conditional`, its text is copied with `strcpy` to `cond_type` (the text and
its NUL must fit the buffer), and the walk starts at index 1. -/
def parse_command (tokens : List Token) : ParseResult :=
  match tokens with
  | [] => finish_parse (parse_loop [] [] empty_command false) false []
  | t :: ts =>
    if t.type = TOKEN_AND ∨ t.type = TOKEN_OR then
      if t.value.length + 1 ≤ COND_TYPE_SIZE then
        finish_parse (parse_loop ts [] empty_command false) true t.value
      else .out_of_bounds (.cond_type (t.value.length + 1))
    else
      finish_parse (parse_loop (t :: ts) [] empty_command false) false []

/-! ## Line controller: one iteration of the loop of `main` (lines 86-152) -/

/-- What the loop of `main` does next: `continue`, `break` (the shell ends with
`EXIT_SUCCESS`) or `return EXIT_FAILURE`. -/
inductive Control where
  | next_line
  | leave_loop
  | return_failure
  deriving DecidableEq, Repr

/-- Calls and output of one iteration, in program order. -/
inductive MainEvent where
  | parse_command_call (tokens : List Token)
  | execute_command_call (commands : List Command) (is_pipeline : Bool)
  | printed (text : CStr)
  deriving DecidableEq, Repr

structure Iteration where
  last_exit_status : Int
  control : Control
  events : List MainEvent
  deriving DecidableEq, Repr

/-- Joins strings with single spaces. -/
def join_spaces : List CStr → CStr
  | [] => []
  | [a] => a
  | a :: b :: rest => a ++ ' ' :: join_spaces (b :: rest)

/-- Lines 135-139: `die` prints its arguments separated by spaces, and a
newline when there is at least one. -/
def die_output (args : List CStr) : CStr :=
  join_spaces args.tail ++ (if 1 < args.length then ['\n'] else [])

/-- Lines 128-152: terminator interception, execution and status update, for
a parsed line that was not skipped.  `status` is `last_exit_status` on entry;
`exit` and `die` leave it as it is. -/
def run_parsed (exec : List Command → Bool → Int) (status : Int)
    (commands : List Command) (is_pipeline : Bool) (events : List MainEvent) :
    Iteration :=
  let run : Iteration :=
    let result := exec commands is_pipeline
    { last_exit_status := if result = 0 then 0 else 1
      control := .next_line
      events := events ++ [.execute_command_call commands is_pipeline] }
  match commands with
  | [] => run
  | c :: _ =>
    match c.args with
    | [] => run
    | a :: _ =>
      if a = "exit".toList then
        { last_exit_status := status, control := .leave_loop, events := events }
      else if a = "die".toList then
        { last_exit_status := status, control := .return_failure
          events := events ++ [.printed (die_output c.args)] }
      else run

/-- One iteration of the `while (1)` loop of `main` after `read_command` has
filled `buffer` with a non-empty line.  `exec` is `execute_command`, `status`
the value of the global `last_exit_status` on entry; the field
`last_exit_status` of the result is its value when the iteration ends.  The
iteration has no result when `tokenize` or `parse_command` stored outside an
array. -/
def main_iteration (exec : List Command → Bool → Int) (status : Int)
    (buffer : List Char) : Except OutOfBounds Iteration :=
  match tokenize buffer with
  | .error w => .error w
  | .ok tokens =>
    if tokens.length = 0 then
      .ok { last_exit_status := status, control := .next_line, events := [] }
    else
      let events := [MainEvent.parse_command_call tokens]
      match parse_command tokens with
      | .out_of_bounds w => .error w
      | .error _ => .ok { last_exit_status := 1, control := .next_line, events := events }
      | .ok commands is_pipeline is_conditional cond_type =>
        if is_conditional ∧ cond_type = "and".toList ∧ status ≠ 0 then
          .ok { last_exit_status := status, control := .next_line, events := events }
        else if is_conditional ∧ cond_type = "or".toList ∧ status = 0 then
          .ok { last_exit_status := status, control := .next_line, events := events }
        else
          .ok (run_parsed exec status commands is_pipeline events)

/-! ## Executable resolver (mysh.c, lines 380-397) -/

/-- The fixed search directories of `find_program`, in order. -/
def search_dirs : List CStr := ["/usr/local/bin".toList, "/usr/bin".toList, "/bin".toList]

/-- Line 390: `snprintf(path, sizeof(path), "%s/%s", dir, name)` keeps at most
`BUFFER_SIZE - 1` characters. -/
def search_path (dir name : CStr) : CStr := (dir ++ '/' :: name).take (BUFFER_SIZE - 1)

/-- The function `find_program`; `access_x_ok path` is `access(path, X_OK) == 0`. -/
def find_program (access_x_ok : CStr → Bool) (name : CStr) : Option CStr :=
  if '/' ∈ name then
    if access_x_ok name then some name else none
  else
    (search_dirs.map (fun dir => search_path dir name)).find? access_x_ok

/-! ## Process orchestrator (mysh.c, lines 399-497) -/

/-- How a child ended, as `waitpid` reports it: `WIFEXITED` with
`WEXITSTATUS = code`, or any other way. -/
inductive WaitStatus where
  | exited (code : Nat)
  | abnormal (signal : Nat)
  deriving DecidableEq, Repr

/-- The operating system as `execute_command` sees it.  Each call the function
can make at most once for an index is answered by index. -/
structure Env where
  /-- The global `interactive_mode`. -/
  interactive_mode : Bool
  /-- The value of `isatty(STDIN_FILENO)`. -/
  stdin_isatty : Bool
  /-- Whether `pipe(pipes[i])` succeeds. -/
  pipe_ok : Nat → Bool
  /-- Whether `access(path, X_OK)` is 0. -/
  access_x_ok : CStr → Bool
  /-- The result of `fork()` for stage `i` in the parent: the pid of the
  child, or `none` when it fails. -/
  fork : Nat → Option Nat
  /-- The termination status of the child with the given pid. -/
  child_status : Nat → WaitStatus
  /-- What `status` holds after `waitpid` in iteration `i` of the wait loop
  when the program does not determine it (see `wait_loop`). -/
  indeterminate : Nat → WaitStatus
  /-- The return value of `execute_builtin`. -/
  execute_builtin : Command → Int

/-- The system calls and messages of the shell process inside
`execute_command`, in program order. -/
inductive Event where
  | builtin (cmd : Command)
  | pipe_created (i : Nat)
  | pipe_failed (i : Nat)
  | close_read (j : Nat)
  | close_write (j : Nat)
  | find_program_call (name : CStr) (found : Bool)
  | stderr (text : CStr)
  | perror (what : CStr)
  | forked (i : Nat) (pid : Nat)
  | fork_failed (i : Nat)
  | waitpid (pid : Nat)
  | waitpid_uninitialised (i : Nat)
  deriving DecidableEq, Repr

structure ExecResult where
  ret : Int
  trace : List Event
  deriving DecidableEq, Repr

/-- Lines 402-403: the names dispatched to `execute_builtin`. -/
def is_builtin_name (name : CStr) : Bool :=
  name = "cd".toList || name = "pwd".toList || name = "which".toList || name = "exit".toList

/-- Lines 400-405: the command handed to `execute_builtin` when the single-stage
fast path is taken. -/
def builtin_command (commands : List Command) (is_pipeline : Bool) : Option Command :=
  match commands with
  | [c] =>
    if is_pipeline then none
    else
      match c.args with
      | [] => none
      | name :: _ => if is_builtin_name name then some c else none
  | _ => none

/-- Lines 409-414: the calls `pipe(pipes[i])` for `i` from `i` on, `k` of them
still to make.  The flag tells whether all succeeded. -/
def create_pipes (env : Env) : Nat → Nat → List Event × Bool
  | _, 0 => ([], true)
  | i, k + 1 =>
    if env.pipe_ok i then
      let r := create_pipes env (i + 1) k
      (Event.pipe_created i :: r.1, r.2)
    else
      ([Event.pipe_failed i, Event.perror "pipe".toList], false)

/-- The loops `for (j = 0; j < cmd_count - 1; j++) { close(pipes[j][0]);
close(pipes[j][1]); }` of lines 426-429 and 482-485. -/
def close_pipes (cmd_count : Nat) : List Event :=
  (List.range (cmd_count - 1)).flatMap (fun j => [Event.close_read j, Event.close_write j])

/-- The spawn loop, lines 419-480, from stage `i` on, as the parent runs it.
`pids` are the entries `pids[0..i)`: `none` marks an entry that was never
assigned.  The result is the trace with either the early return value or the
`pids` array after the loop. -/
def spawn_loop (env : Env) (cmd_count : Nat) :
    Nat → List Command → List (Option Nat) → List Event × (Int ⊕ List (Option Nat))
  | _, [], pids => ([], .inr pids)
  | i, cmd :: rest, pids =>
    match cmd.args with
    | [] => spawn_loop env cmd_count (i + 1) rest (pids ++ [none])
    | name :: _ =>
      match find_program env.access_x_ok name with
      | none =>
        (Event.find_program_call name false ::
          Event.stderr (name ++ ": command not found\n".toList) :: close_pipes cmd_count,
         .inl (-1))
      | some _ =>
        match env.fork i with
        | none =>
          ([Event.find_program_call name true, Event.fork_failed i,
            Event.perror "fork".toList], .inl (-1))
        | some pid =>
          let r := spawn_loop env cmd_count (i + 1) rest (pids ++ [some pid])
          (Event.find_program_call name true :: Event.forked i pid :: r.1, r.2)

/-- Line 492: `WIFEXITED(status) && WEXITSTATUS(status) == 0 ? 0 : 1`. -/
def status_code (status : WaitStatus) : Int :=
  if status = WaitStatus.exited 0 then 0 else 1

/-- The wait loop, lines 488-494, from index `i` on; `pids` are the entries
`pids[i..cmd_count)`.  An entry that was assigned is the pid of an unreaped
child and `waitpid` stores its termination status.  For an entry that was never
assigned (a stage without arguments) `waitpid` receives an indeterminate pid:
what it reaps and what `status` holds afterwards is not determined by the
program, in that iteration and in the later ones (`tainted`); the status read
is then the environment's indeterminate value. -/
def wait_loop (env : Env) (cmd_count : Nat) :
    Nat → List (Option Nat) → Bool → Int → List Event × Int
  | _, [], _, last_status => ([], last_status)
  | i, p :: ps, tainted, last_status =>
    let ev : Event :=
      match p with
      | some pid => Event.waitpid pid
      | none => Event.waitpid_uninitialised i
    let status : WaitStatus :=
      match p with
      | some pid => if tainted then env.indeterminate i else env.child_status pid
      | none => env.indeterminate i
    let last1 : Int := if i = cmd_count - 1 then status_code status else last_status
    let r := wait_loop env cmd_count (i + 1) ps (tainted || p.isNone) last1
    (ev :: r.1, r.2)

/-- The function `execute_command`; `cmd_count` is the length of `commands`. -/
def execute_command (env : Env) (commands : List Command) (is_pipeline : Bool) :
    ExecResult :=
  let cmd_count := commands.length
  match builtin_command commands is_pipeline with
  | some c => { ret := env.execute_builtin c, trace := [Event.builtin c] }
  | none =>
    let pipes := create_pipes env 0 (cmd_count - 1)
    if !pipes.2 then
      { ret := -1, trace := pipes.1 }
    else
      let spawned := spawn_loop env cmd_count 0 commands []
      match spawned.2 with
      | .inl ret => { ret := ret, trace := pipes.1 ++ spawned.1 }
      | .inr pids =>
        let waited := wait_loop env cmd_count 0 pids false 0
        { ret := waited.2
          trace := pipes.1 ++ spawned.1 ++ close_pipes cmd_count ++ waited.1 }

/-! ## The spawned child (mysh.c, lines 440-476) -/

/-- What a descriptor of the child refers to. -/
inductive Endpoint where
  | inherited_stdin
  | inherited_stdout
  | pipe_read (j : Nat)
  | pipe_write (j : Nat)
  | file_read (path : CStr)
  | file_write (path : CStr)
  | null_device
  deriving DecidableEq, Repr

/-- The two descriptors the child rewires. -/
inductive StdFd where
  | STDIN_FILENO
  | STDOUT_FILENO
  deriving DecidableEq, Repr

/-- The system calls of the child between `fork` and the program image.  A
descriptor argument is what the descriptor refers to; `none` is the `-1` of
an `open` that failed. -/
inductive ChildOp where
  | open_rdonly (path : CStr) (ok : Bool)
  | open_trunc (path : CStr) (ok : Bool)
  | dup2 (fd : Option Endpoint) (target : StdFd)
  | close (fd : Option Endpoint)
  | perror (what : CStr)
  | exit_failure
  | execv (path : CStr) (args : List CStr)
  deriving DecidableEq, Repr

/-- Lines 441-455: the standard input of the child of stage `i`.  The flag
tells whether the child goes on (`false`: it has called `exit`). -/
def child_stdin (open_ok : CStr → Bool) (redirect_stdin_to_null : Bool) (cmd : Command)
    (i : Nat) : List ChildOp × Bool :=
  match cmd.input_file with
  | some f =>
    if open_ok f then
      ([.open_rdonly f true, .dup2 (some (.file_read f)) .STDIN_FILENO,
        .close (some (.file_read f))], true)
    else
      ([.open_rdonly f false, .perror f, .exit_failure], false)
  | none =>
    if 0 < i then
      ([.dup2 (some (.pipe_read (i - 1))) .STDIN_FILENO], true)
    else if redirect_stdin_to_null then
      if open_ok "/dev/null".toList then
        ([.open_rdonly "/dev/null".toList true, .dup2 (some .null_device) .STDIN_FILENO,
          .close (some .null_device)], true)
      else
        ([.open_rdonly "/dev/null".toList false, .dup2 none .STDIN_FILENO, .close none], true)
    else ([], true)

/-- Lines 456-466: the standard output of the child of stage `i`. -/
def child_stdout (open_ok : CStr → Bool) (cmd : Command) (i cmd_count : Nat) :
    List ChildOp × Bool :=
  match cmd.output_file with
  | some f =>
    if open_ok f then
      ([.open_trunc f true, .dup2 (some (.file_write f)) .STDOUT_FILENO,
        .close (some (.file_write f))], true)
    else
      ([.open_trunc f false, .perror f, .exit_failure], false)
  | none =>
    if i < cmd_count - 1 then
      ([.dup2 (some (.pipe_write i)) .STDOUT_FILENO], true)
    else ([], true)

/-- Lines 468-471: the child closes both ends of every pipe of the pipeline. -/
def child_close_pipes (cmd_count : Nat) : List ChildOp :=
  (List.range (cmd_count - 1)).flatMap
    (fun j => [.close (some (.pipe_read j)), .close (some (.pipe_write j))])

/-- Lines 440-476: everything the child of stage `i` does; `open_ok path`
tells whether `open` succeeds on `path`, `execv_ok` whether `execv` does. -/
def child_ops (open_ok : CStr → Bool) (execv_ok : Bool) (redirect_stdin_to_null : Bool)
    (cmd : Command) (i cmd_count : Nat) (prog_path : CStr) : List ChildOp :=
  let input := child_stdin open_ok redirect_stdin_to_null cmd i
  if !input.2 then input.1
  else
    let output := child_stdout open_ok cmd i cmd_count
    if !output.2 then input.1 ++ output.1
    else
      input.1 ++ output.1 ++ child_close_pipes cmd_count ++
        (ChildOp.execv prog_path cmd.args ::
          (if execv_ok then [] else [.perror prog_path, .exit_failure]))

/-- Line 417: `!interactive_mode && !isatty(STDIN_FILENO)`. -/
def redirect_stdin_to_null (env : Env) : Bool := !env.interactive_mode && !env.stdin_isatty

/-- The token is `<` or `>`. -/
def is_redirect (t : Token) : Prop := t.type = TOKEN_INPUT_REDIR ∨ t.type = TOKEN_OUTPUT_REDIR

/-- The sequence contains a redirection token that is the last token or is
immediately followed by a token whose type is not Word. -/
def dangling_redirect (tokens : List Token) : Prop :=
  ∃ pre r post, tokens = pre ++ r :: post ∧ is_redirect r ∧
    (post = [] ∨ ∃ n rest, post = n :: rest ∧ n.type ≠ TOKEN_WORD)

/-- The number of Pipe tokens of the sequence. -/
def pipe_count (tokens : List Token) : Nat :=
  tokens.countP (fun t => decide (t.type = TOKEN_PIPE))

/-- An And token carries the text "and" and an Or token the text "or", as
`tokenize` produces them (lines 235-240). -/
def Token.wf (t : Token) : Prop :=
  (t.type = TOKEN_AND → t.value = "and".toList) ∧ (t.type = TOKEN_OR → t.value = "or".toList)

instance (t : Token) : Decidable t.wf := by
  unfold Token.wf
  infer_instance

/-- What holds of the tokens stored so far: they fit `token_array` and each
And/Or token carries its own word. -/
def stored_ok (acc : List Token) : Prop := acc.length ≤ MAX_TOKENS ∧ ∀ t ∈ acc, t.wf

/-- The event is a call of `fork`, successful or not. -/
def is_fork_call : Event → Bool
  | .forked _ _ => true
  | .fork_failed _ => true
  | _ => false

/-- How many times `fork` was called. -/
def fork_calls (trace : List Event) : Nat := trace.countP is_fork_call

/-- Every pipe created in the trace has both its ends closed in the trace. -/
def pipes_closed (trace : List Event) : Bool :=
  trace.all fun e =>
    match e with
    | .pipe_created i => trace.contains (.close_read i) && trace.contains (.close_write i)
    | _ => true

/-- Every child created in the trace is waited on in the trace. -/
def children_waited (trace : List Event) : Bool :=
  trace.all fun e =>
    match e with
    | .forked _ pid => trace.contains (.waitpid pid)
    | _ => true

/-- An environment in which nothing fails: every pipe is created, only the
programs `ls`, `wc` and `true` are found (in `/bin`), stage `i` gets the child
100 + i, and every child exits with code 0. -/
def sample_env : Env :=
  { interactive_mode := true
    stdin_isatty := true
    pipe_ok := fun _ => true
    access_x_ok := fun path =>
      path = "/bin/ls".toList || path = "/bin/wc".toList || path = "/bin/true".toList
    fork := fun i => some (100 + i)
    child_status := fun _ => .exited 0
    indeterminate := fun _ => .exited 0
    execute_builtin := fun _ => 0 }

/-- A stage with only an argument list. -/
def simple_command (args : List String) : Command :=
  { args := args.map String.toList, input_file := none, output_file := none }

/-! ## Tokenizer facts -/

theorem isspace_ne_nul (c : Char) (h : isspace c = true) : (c != '\x00') = true := by
  cases hc : (c != '\x00')
  · have : c = '\x00' := by simpa using hc
    subst this
    exact absurd h (by decide)
  · rfl

theorem c_str_spaces_append (ws tail : List Char) (hws : ∀ c ∈ ws, isspace c = true) :
    c_str (ws ++ tail) = ws ++ c_str tail := by
  unfold c_str
  exact List.takeWhile_append_of_pos (fun c hc => isspace_ne_nul c (hws c hc))

theorem skip_spaces_append (ws tail : List Char) (hws : ∀ c ∈ ws, isspace c = true) :
    skip_spaces (ws ++ tail) = skip_spaces tail := by
  unfold skip_spaces
  exact List.dropWhile_append_of_pos hws

/-- A line of white space, optionally followed by a comment, has no tokens:
the scan leaves the loop at line 194 or line 197 before storing anything. -/
theorem tokenize_blank (ws tail : List Char) (hws : ∀ c ∈ ws, isspace c = true)
    (htail : tail = [] ∨ ∃ r, tail = '#' :: r) : tokenize (ws ++ tail) = .ok [] := by
  unfold tokenize
  rw [c_str_spaces_append ws tail hws]
  cases strlen (ws ++ tail) with
  | zero => rfl
  | succ fuel =>
    unfold tokenize_loop
    rw [skip_spaces_append ws _ hws]
    rcases htail with h | ⟨r, h⟩
    · subst h; rfl
    · subst h
      have : skip_spaces (c_str ('#' :: r)) = '#' :: c_str r := by
        simp [c_str, skip_spaces, List.takeWhile, List.dropWhile, isspace]
      rw [this]
      simp

theorem skip_spaces_cons (rest : List Char) (c : Char) (cs : List Char)
    (h : skip_spaces rest = c :: cs) : isspace c = false ∧ cs.length < rest.length := by
  induction rest with
  | nil => simp [skip_spaces] at h
  | cons a rest ih =>
    unfold skip_spaces at h ih
    by_cases ha : isspace a = true
    · rw [List.dropWhile_cons_of_pos ha] at h
      have := ih h
      exact ⟨this.1, by simp; omega⟩
    · rw [List.dropWhile_cons_of_neg ha] at h
      simp only [List.cons.injEq] at h
      obtain ⟨h1, h2⟩ := h
      subst h1 h2
      exact ⟨by simpa using ha, by simp⟩

theorem dropWhile_length_le (p : Char → Bool) (l : List Char) :
    (l.dropWhile p).length ≤ l.length := by
  induction l with
  | nil => simp
  | cons a l ih =>
    by_cases ha : p a = true
    · rw [List.dropWhile_cons_of_pos ha]; simp; omega
    · rw [List.dropWhile_cons_of_neg ha]

/-- The fuel of `tokenize_loop`: with at least as many iterations as there are
characters left, more iterations change nothing, so the loop of `tokenize`
always ends by its own exit conditions (or at a store outside the array). -/
theorem tokenize_loop_fuel (extra : Nat) : ∀ (fuel : Nat) (rest : List Char)
    (acc : List Token), rest.length ≤ fuel →
    tokenize_loop (fuel + extra) rest acc = tokenize_loop fuel rest acc := by
  intro fuel
  induction fuel with
  | zero =>
    intro rest acc hlen
    have : rest = [] := List.length_eq_zero.mp (Nat.le_zero.mp hlen)
    subst this
    cases extra with
    | zero => rfl
    | succ e => simp [tokenize_loop, skip_spaces]
  | succ fuel ih =>
    intro rest acc hlen
    rw [Nat.add_right_comm]
    unfold tokenize_loop
    cases hs : skip_spaces rest with
    | nil => rfl
    | cons c cs =>
      obtain ⟨hsp, hcs⟩ := skip_spaces_cons rest c cs hs
      have hcs1 : cs.length ≤ fuel := by omega
      simp only
      by_cases h1 : c = '#'
      · simp [h1]
      · by_cases h2 : c = '|'
        · subst h2
          simp [ih cs _ hcs1]
        · by_cases h3 : c = '<'
          · subst h3
            simp [ih cs _ hcs1]
          · by_cases h4 : c = '>'
            · subst h4
              simp [ih cs _ hcs1]
            · simp only [h1, h2, h3, h4, if_false]
              have hw : word_char c = true := by
                simp [word_char, hsp, h1, h2, h3, h4]
              have hd : (List.dropWhile word_char (c :: cs)).length ≤ fuel := by
                rw [List.dropWhile_cons_of_pos hw]
                exact Nat.le_trans (dropWhile_length_le _ _) hcs1
              rw [ih _ _ hd, ih _ _ hd]

theorem classify_wf (word : CStr) : (classify word).wf := by
  unfold classify Token.wf
  by_cases h1 : word = "and".toList
  · simp [h1]
  · by_cases h2 : word = "or".toList
    · rw [if_neg h1, if_pos h2]
      simp [h2]
    · rw [if_neg h1, if_neg h2]
      simp

theorem stored_ok_append (acc : List Token) (x : Token) (hacc : stored_ok acc)
    (hcap : acc.length < MAX_TOKENS) (hx : x.wf) : stored_ok (acc ++ [x]) := by
  refine ⟨by simp; omega, ?_⟩
  intro t ht
  rcases List.mem_append.mp ht with h | h
  · exact hacc.2 t h
  · simp at h; subst h; exact hx

theorem tokenize_loop_stored_ok : ∀ (fuel : Nat) (rest : List Char) (acc ts : List Token),
    stored_ok acc → tokenize_loop fuel rest acc = .ok ts → stored_ok ts := by
  intro fuel
  induction fuel with
  | zero =>
    intro rest acc ts hacc h
    simp only [tokenize_loop, Except.ok.injEq] at h
    exact h ▸ hacc
  | succ fuel ih =>
    intro rest acc ts hacc h
    have step : ∀ (r : List Char) (x : Token), x.wf →
        (if acc.length < MAX_TOKENS then tokenize_loop fuel r (acc ++ [x])
          else .error (.token_array acc.length)) = .ok ts → stored_ok ts := by
      intro r x hx hr
      by_cases hcap : acc.length < MAX_TOKENS
      · rw [if_pos hcap] at hr
        exact ih r _ ts (stored_ok_append acc x hacc hcap hx) hr
      · rw [if_neg hcap] at hr
        cases hr
    unfold tokenize_loop at h
    cases hs : skip_spaces rest with
    | nil =>
      rw [hs] at h
      simp only [Except.ok.injEq] at h
      exact h ▸ hacc
    | cons c cs =>
      rw [hs] at h
      simp only at h
      split at h
      · simp only [Except.ok.injEq] at h
        exact h ▸ hacc
      · split at h
        · exact step _ _ (by simp [Token.wf]) h
        · split at h
          · exact step _ _ (by simp [Token.wf]) h
          · split at h
            · exact step _ _ (by simp [Token.wf]) h
            · split at h
              · exact step _ _ (classify_wf _) h
              · exact ih _ _ ts hacc h

theorem tokenize_wf (buffer : List Char) (ts : List Token) (h : tokenize buffer = .ok ts) :
    ∀ t ∈ ts, t.wf :=
  (tokenize_loop_stored_ok _ _ [] ts ⟨by simp, by simp⟩ h).2

/-- When `tokenize` returns, the count is at most `MAX_TOKENS`. -/
theorem tokenize_length_le (buffer : List Char) (ts : List Token)
    (h : tokenize buffer = .ok ts) : ts.length ≤ MAX_TOKENS :=
  (tokenize_loop_stored_ok _ _ [] ts ⟨by simp, by simp⟩ h).1

/-- Claim C1.  For a line made of white-space characters only, optionally
followed by `#` and anything, `tokenize` returns the count 0 (the empty token
array), and for every prior `last_exit_status` the iteration of the main loop
calls neither `parse_command` nor `execute_command` (it has no event at all),
goes on to the next line and leaves `last_exit_status` as it was. -/
theorem C1_blank_line_no_tokens_no_execution (ws tail : List Char)
    (hws : ∀ c ∈ ws, isspace c = true) (htail : tail = [] ∨ ∃ r, tail = '#' :: r) :
    tokenize (ws ++ tail) = .ok [] ∧
    ∀ (exec : List Command → Bool → Int) (s : Int),
      main_iteration exec s (ws ++ tail) =
        .ok { last_exit_status := s, control := .next_line, events := [] } := by
  have h := tokenize_blank ws tail hws htail
  refine ⟨h, ?_⟩
  intro exec s
  unfold main_iteration
  simp [h]

theorem C1_blank_line_witness :
    tokenize (" \t ".toList ++ "# ls | wc\n".toList) = .ok [] ∧
    ∀ (exec : List Command → Bool → Int) (s : Int),
      main_iteration exec s (" \t ".toList ++ "# ls | wc\n".toList) =
        .ok { last_exit_status := s, control := .next_line, events := [] } :=
  C1_blank_line_no_tokens_no_execution " \t ".toList "# ls | wc\n".toList
    (by decide) (Or.inr ⟨" ls | wc\n".toList, rfl⟩)

/-! ## Parser facts -/

theorem parse_loop_nil (done : List Command) (cur : Command) (pl : Bool) :
    parse_loop [] done cur pl = .ok (done ++ [cur], pl) := rfl

theorem parse_loop_pipe (t : Token) (ts : List Token) (done : List Command) (cur : Command)
    (pl : Bool) (h : t.type = TOKEN_PIPE) :
    parse_loop (t :: ts) done cur pl =
      if done.length + 1 < MAX_PIPES then parse_loop ts (done ++ [cur]) empty_command true
      else .error (.out_of_bounds (.cmd_array (done.length + 1))) := by
  obtain ⟨v, ty⟩ := t
  cases h
  rfl

theorem parse_loop_word (t : Token) (ts : List Token) (done : List Command) (cur : Command)
    (pl : Bool) (h : t.type = TOKEN_WORD) :
    parse_loop (t :: ts) done cur pl =
      if cur.args.length < MAX_TOKENS then
        parse_loop ts done { cur with args := cur.args ++ [t.value] } pl
      else .error (.out_of_bounds (.args done.length cur.args.length)) := by
  obtain ⟨v, ty⟩ := t
  cases h
  rfl

theorem parse_loop_and (t : Token) (ts : List Token) (done : List Command) (cur : Command)
    (pl : Bool) (h : t.type = TOKEN_AND) :
    parse_loop (t :: ts) done cur pl = parse_loop ts done cur pl := by
  obtain ⟨v, ty⟩ := t
  cases h
  rfl

theorem parse_loop_or (t : Token) (ts : List Token) (done : List Command) (cur : Command)
    (pl : Bool) (h : t.type = TOKEN_OR) :
    parse_loop (t :: ts) done cur pl = parse_loop ts done cur pl := by
  obtain ⟨v, ty⟩ := t
  cases h
  rfl

theorem parse_loop_in_nil (t : Token) (done : List Command) (cur : Command)
    (pl : Bool) (h : t.type = TOKEN_INPUT_REDIR) :
    parse_loop [t] done cur pl = .error (.redirect '<') := by
  obtain ⟨v, ty⟩ := t
  cases h
  rfl

theorem parse_loop_in_cons (t n : Token) (ts : List Token) (done : List Command)
    (cur : Command) (pl : Bool) (h : t.type = TOKEN_INPUT_REDIR) :
    parse_loop (t :: n :: ts) done cur pl =
      if n.type = TOKEN_WORD then
        parse_loop ts done { cur with input_file := some n.value } pl
      else .error (.redirect '<') := by
  obtain ⟨v, ty⟩ := t
  cases h
  rfl

theorem parse_loop_out_nil (t : Token) (done : List Command) (cur : Command)
    (pl : Bool) (h : t.type = TOKEN_OUTPUT_REDIR) :
    parse_loop [t] done cur pl = .error (.redirect '>') := by
  obtain ⟨v, ty⟩ := t
  cases h
  rfl

theorem parse_loop_out_cons (t n : Token) (ts : List Token) (done : List Command)
    (cur : Command) (pl : Bool) (h : t.type = TOKEN_OUTPUT_REDIR) :
    parse_loop (t :: n :: ts) done cur pl =
      if n.type = TOKEN_WORD then
        parse_loop ts done { cur with output_file := some n.value } pl
      else .error (.redirect '>') := by
  obtain ⟨v, ty⟩ := t
  cases h
  rfl

theorem parse_loop_words (ts : List Token) (hw : ∀ t ∈ ts, t.type = TOKEN_WORD) :
    ∀ (done : List Command) (cur : Command) (pl : Bool),
      cur.args.length + ts.length ≤ MAX_TOKENS →
      parse_loop ts done cur pl =
        .ok (done ++ [{ cur with args := cur.args ++ ts.map Token.value }], pl) := by
  induction ts with
  | nil => intro done cur pl _; simp [parse_loop_nil]
  | cons t ts ih =>
    intro done cur pl hcap
    have ht : t.type = TOKEN_WORD := hw t (List.mem_cons_self _ _)
    have hts : ∀ u ∈ ts, u.type = TOKEN_WORD := fun u hu => hw u (List.mem_cons_of_mem _ hu)
    simp only [List.length_cons] at hcap
    rw [parse_loop_word t ts done cur pl ht, if_pos (by omega), ih hts]
    · simp
    · simp only [List.length_append, List.length_singleton]
      omega

theorem parse_loop_words_overflow (ts : List Token) (hw : ∀ t ∈ ts, t.type = TOKEN_WORD) :
    ∀ (done : List Command) (cur : Command) (pl : Bool),
      cur.args.length ≤ MAX_TOKENS → MAX_TOKENS < cur.args.length + ts.length →
      parse_loop ts done cur pl = .error (.out_of_bounds (.args done.length MAX_TOKENS)) := by
  induction ts with
  | nil => intro done cur pl h1 h2; simp at h2; omega
  | cons t ts ih =>
    intro done cur pl h1 h2
    have ht : t.type = TOKEN_WORD := hw t (List.mem_cons_self _ _)
    have hts : ∀ u ∈ ts, u.type = TOKEN_WORD := fun u hu => hw u (List.mem_cons_of_mem _ hu)
    simp only [List.length_cons] at h2
    rw [parse_loop_word t ts done cur pl ht]
    by_cases hcap : cur.args.length < MAX_TOKENS
    · rw [if_pos hcap]
      apply ih hts
      · simp only [List.length_append, List.length_singleton]; omega
      · simp only [List.length_append, List.length_singleton]; omega
    · rw [if_neg hcap]
      have : cur.args.length = MAX_TOKENS := by omega
      rw [this]

/-- Within the capacity of the argument array (fewer than `MAX_TOKENS` tokens) a
non-empty sequence of Word tokens parses to one stage with the texts of the
tokens as arguments, no redirect, and both flags 0. -/
theorem parse_command_words_within_capacity (tokens : List Token) (hne : tokens ≠ [])
    (hw : ∀ t ∈ tokens, t.type = TOKEN_WORD) (hcap : tokens.length < MAX_TOKENS) :
    parse_command tokens =
      .ok [{ args := tokens.map Token.value, input_file := none, output_file := none }]
        false false [] ∧
    (parse_command tokens).ret = some 1 := by
  have key : parse_command tokens =
      .ok [{ args := tokens.map Token.value, input_file := none, output_file := none }]
        false false [] := by
    cases tokens with
    | nil => exact absurd rfl hne
    | cons t ts =>
      have ht : t.type = TOKEN_WORD := hw t (List.mem_cons_self _ _)
      have hlen : (List.map Token.value (t :: ts)).length < MAX_TOKENS := by
        simpa using hcap
      simp only [parse_command]
      rw [parse_loop_words (t :: ts) hw [] empty_command false
        (by simp only [empty_command, List.length_nil]; omega)]
      simp only [ht, reduceCtorEq, or_self, if_false, finish_parse, List.nil_append,
        empty_command, terminate_args, if_pos hlen]
  refine ⟨key, ?_⟩
  rw [key]
  rfl

theorem parse_command_words_within_capacity_witness :
    parse_command [⟨"ls".toList, TOKEN_WORD⟩, ⟨"-l".toList, TOKEN_WORD⟩] =
      .ok [{ args := ["ls".toList, "-l".toList], input_file := none, output_file := none }]
        false false [] :=
  (parse_command_words_within_capacity [⟨"ls".toList, TOKEN_WORD⟩, ⟨"-l".toList, TOKEN_WORD⟩]
    (by decide) (by decide) (by decide)).1

/-- From `MAX_TOKENS` Word tokens on, `parse_command` stores at index
`MAX_TOKENS` of the argument array of stage 0: the NULL terminator of line 323
for exactly `MAX_TOKENS` tokens, an argument (line 314) for more. -/
theorem parse_command_words_overflow (tokens : List Token)
    (hw : ∀ t ∈ tokens, t.type = TOKEN_WORD) (hlen : MAX_TOKENS ≤ tokens.length) :
    parse_command tokens = .out_of_bounds (.args 0 MAX_TOKENS) := by
  cases tokens with
  | nil => simp [MAX_TOKENS] at hlen
  | cons t ts =>
    have ht : t.type = TOKEN_WORD := hw t (List.mem_cons_self _ _)
    simp only [parse_command, ht, reduceCtorEq, or_self, if_false]
    by_cases heq : (t :: ts).length = MAX_TOKENS
    · rw [parse_loop_words (t :: ts) hw [] empty_command false
        (by simp only [empty_command, List.length_nil]; omega)]
      have hl : ¬ (List.map Token.value (t :: ts)).length < MAX_TOKENS := by
        rw [List.length_map]; omega
      have hl2 : (List.map Token.value (t :: ts)).length = MAX_TOKENS := by
        rw [List.length_map]; exact heq
      simp only [finish_parse, List.nil_append, empty_command, terminate_args, if_neg hl,
        hl2, Nat.lt_irrefl, if_false]
    · rw [parse_loop_words_overflow (t :: ts) hw [] empty_command false
        (by simp [empty_command]) (by simp only [empty_command, List.length_nil]; omega)]
      rfl

set_option maxRecDepth 1000000 in
/-- Claim C2 fails on the code.  For 256 Word tokens (the tokens of a line of
256 one-letter words, 512 characters) `parse_command` stores the 256 texts and
then writes the NULL terminator at `args[256]`, outside the array of
`MAX_TOKENS` = 256 pointers; for 258 Word tokens it already stores an argument
at `args[256]`.  With 255 tokens everything fits. -/
theorem C2_argument_array_overflow :
    tokenize (List.replicate 256 "w ".toList).flatten =
      .ok (List.replicate 256 { value := "w".toList, type := TOKEN_WORD }) ∧
    parse_command (List.replicate 256 { value := "w".toList, type := TOKEN_WORD }) =
      .out_of_bounds (.args 0 256) ∧
    parse_command (List.replicate 258 { value := "w".toList, type := TOKEN_WORD }) =
      .out_of_bounds (.args 0 256) ∧
    parse_command (List.replicate 255 { value := "w".toList, type := TOKEN_WORD }) =
      .ok [{ args := List.replicate 255 "w".toList, input_file := none,
             output_file := none }] false false [] := by
  decide

theorem dangling_nil : ¬ dangling_redirect [] := by
  rintro ⟨pre, r, post, h, _⟩
  cases pre <;> simp at h

theorem dangling_cons_skip (t : Token) (ts : List Token) (ht : ¬ is_redirect t) :
    dangling_redirect (t :: ts) ↔ dangling_redirect ts := by
  constructor
  · rintro ⟨pre, r, post, h, hr, hp⟩
    cases pre with
    | nil =>
      simp at h
      exact absurd (h.1 ▸ hr) ht
    | cons a pre =>
      simp at h
      exact ⟨pre, r, post, h.2, hr, hp⟩
  · rintro ⟨pre, r, post, h, hr, hp⟩
    exact ⟨t :: pre, r, post, by simp [h], hr, hp⟩

theorem dangling_redirect_word (t n : Token) (ts : List Token) (hn : n.type = TOKEN_WORD) :
    dangling_redirect (t :: n :: ts) ↔ dangling_redirect ts := by
  constructor
  · rintro ⟨pre, r, post, h, hr, hp⟩
    cases pre with
    | nil =>
      simp at h
      rcases hp with hp | ⟨m, rest, hp, hm⟩
      · rw [hp] at h; simp at h
      · rw [hp] at h
        simp at h
        exact absurd (h.2.1 ▸ hn) hm
    | cons a pre =>
      cases pre with
      | nil =>
        simp at h
        rcases hr with hr | hr <;> rw [← h.2.1, hn] at hr <;> cases hr
      | cons b pre =>
        simp at h
        exact ⟨pre, r, post, h.2.2, hr, hp⟩
  · rintro ⟨pre, r, post, h, hr, hp⟩
    exact ⟨t :: n :: pre, r, post, by simp [h], hr, hp⟩

theorem dangling_redirect_head (t : Token) (ts : List Token) (ht : is_redirect t)
    (hts : ts = [] ∨ ∃ n rest, ts = n :: rest ∧ n.type ≠ TOKEN_WORD) :
    dangling_redirect (t :: ts) :=
  ⟨[], t, ts, rfl, ht, hts⟩

theorem pipe_count_cons (t : Token) (ts : List Token) :
    pipe_count (t :: ts) = pipe_count ts + (if t.type = TOKEN_PIPE then 1 else 0) := by
  unfold pipe_count
  rw [List.countP_cons]
  simp

/-- A return of -1 from the walk always comes from a redirection token that
is last or is followed by a token that is not a Word. -/
theorem parse_loop_error_sound : ∀ (k : Nat) (ts : List Token), ts.length ≤ k →
    ∀ (done : List Command) (cur : Command) (pl : Bool) (op : Char),
      parse_loop ts done cur pl = .error (.redirect op) → dangling_redirect ts := by
  intro k
  induction k with
  | zero =>
    intro ts hlen done cur pl op h
    have : ts = [] := List.length_eq_zero.mp (Nat.le_zero.mp hlen)
    subst this
    simp [parse_loop_nil] at h
  | succ k ih =>
    intro ts hlen done cur pl op h
    cases ts with
    | nil => simp [parse_loop_nil] at h
    | cons t ts =>
      have hlen1 : ts.length ≤ k := by simpa using hlen
      cases htype : t.type with
      | TOKEN_PIPE =>
        rw [parse_loop_pipe t ts done cur pl htype] at h
        split at h
        · exact (dangling_cons_skip t ts (by simp [is_redirect, htype])).mpr
            (ih ts hlen1 _ _ _ op h)
        · simp at h
      | TOKEN_WORD =>
        rw [parse_loop_word t ts done cur pl htype] at h
        split at h
        · exact (dangling_cons_skip t ts (by simp [is_redirect, htype])).mpr
            (ih ts hlen1 _ _ _ op h)
        · simp at h
      | TOKEN_AND =>
        rw [parse_loop_and t ts done cur pl htype] at h
        exact (dangling_cons_skip t ts (by simp [is_redirect, htype])).mpr
          (ih ts hlen1 _ _ _ op h)
      | TOKEN_OR =>
        rw [parse_loop_or t ts done cur pl htype] at h
        exact (dangling_cons_skip t ts (by simp [is_redirect, htype])).mpr
          (ih ts hlen1 _ _ _ op h)
      | TOKEN_INPUT_REDIR =>
        have hr : is_redirect t := Or.inl htype
        cases ts with
        | nil => exact dangling_redirect_head t [] hr (Or.inl rfl)
        | cons n ts =>
          have hlen2 : ts.length ≤ k := by
            simp at hlen1; omega
          rw [parse_loop_in_cons t n ts done cur pl htype] at h
          by_cases hn : n.type = TOKEN_WORD
          · rw [if_pos hn] at h
            exact (dangling_redirect_word t n ts hn).mpr (ih ts hlen2 _ _ _ op h)
          · exact dangling_redirect_head t _ hr (Or.inr ⟨n, ts, rfl, hn⟩)
      | TOKEN_OUTPUT_REDIR =>
        have hr : is_redirect t := Or.inr htype
        cases ts with
        | nil => exact dangling_redirect_head t [] hr (Or.inl rfl)
        | cons n ts =>
          have hlen2 : ts.length ≤ k := by
            simp at hlen1; omega
          rw [parse_loop_out_cons t n ts done cur pl htype] at h
          by_cases hn : n.type = TOKEN_WORD
          · rw [if_pos hn] at h
            exact (dangling_redirect_word t n ts hn).mpr (ih ts hlen2 _ _ _ op h)
          · exact dangling_redirect_head t _ hr (Or.inr ⟨n, ts, rfl, hn⟩)

/-- While the stages and the arguments fit their arrays, a redirection token
that is last or is followed by a token that is not a Word makes the walk
return -1. -/
theorem parse_loop_dangling : ∀ (k : Nat) (ts : List Token), ts.length ≤ k →
    ∀ (done : List Command) (cur : Command) (pl : Bool),
      dangling_redirect ts → done.length + 1 + pipe_count ts ≤ MAX_PIPES →
      cur.args.length + ts.length ≤ MAX_TOKENS →
      ∃ op, parse_loop ts done cur pl = .error (.redirect op) := by
  intro k
  induction k with
  | zero =>
    intro ts hlen done cur pl hd _ _
    have : ts = [] := List.length_eq_zero.mp (Nat.le_zero.mp hlen)
    subst this
    exact absurd hd dangling_nil
  | succ k ih =>
    intro ts hlen done cur pl hd hp ha
    cases ts with
    | nil => exact absurd hd dangling_nil
    | cons t ts =>
      have hlen1 : ts.length ≤ k := by simpa using hlen
      rw [pipe_count_cons] at hp
      simp only [List.length_cons] at ha
      cases htype : t.type with
      | TOKEN_PIPE =>
        rw [htype] at hp
        simp only [if_true] at hp
        rw [parse_loop_pipe t ts done cur pl htype, if_pos (by omega)]
        apply ih ts hlen1
        · exact (dangling_cons_skip t ts (by simp [is_redirect, htype])).mp hd
        · simp only [List.length_append, List.length_singleton]; omega
        · simp only [empty_command, List.length_nil]; omega
      | TOKEN_WORD =>
        rw [htype] at hp
        simp only [reduceCtorEq, if_false] at hp
        rw [parse_loop_word t ts done cur pl htype, if_pos (by omega)]
        apply ih ts hlen1
        · exact (dangling_cons_skip t ts (by simp [is_redirect, htype])).mp hd
        · omega
        · simp only [List.length_append, List.length_singleton]; omega
      | TOKEN_AND =>
        rw [htype] at hp
        simp only [reduceCtorEq, if_false] at hp
        rw [parse_loop_and t ts done cur pl htype]
        apply ih ts hlen1
        · exact (dangling_cons_skip t ts (by simp [is_redirect, htype])).mp hd
        · omega
        · omega
      | TOKEN_OR =>
        rw [htype] at hp
        simp only [reduceCtorEq, if_false] at hp
        rw [parse_loop_or t ts done cur pl htype]
        apply ih ts hlen1
        · exact (dangling_cons_skip t ts (by simp [is_redirect, htype])).mp hd
        · omega
        · omega
      | TOKEN_INPUT_REDIR =>
        rw [htype] at hp
        simp only [reduceCtorEq, if_false] at hp
        cases ts with
        | nil => exact ⟨_, parse_loop_in_nil t done cur pl htype⟩
        | cons n ts =>
          have hlen2 : ts.length ≤ k := by
            simp at hlen1; omega
          rw [parse_loop_in_cons t n ts done cur pl htype]
          by_cases hn : n.type = TOKEN_WORD
          · rw [if_pos hn]
            rw [pipe_count_cons, hn] at hp
            simp only [reduceCtorEq, if_false] at hp
            simp only [List.length_cons] at ha
            apply ih ts hlen2
            · exact (dangling_redirect_word t n ts hn).mp hd
            · omega
            · simp only; omega
          · rw [if_neg hn]
            exact ⟨_, rfl⟩
      | TOKEN_OUTPUT_REDIR =>
        rw [htype] at hp
        simp only [reduceCtorEq, if_false] at hp
        cases ts with
        | nil => exact ⟨_, parse_loop_out_nil t done cur pl htype⟩
        | cons n ts =>
          have hlen2 : ts.length ≤ k := by
            simp at hlen1; omega
          rw [parse_loop_out_cons t n ts done cur pl htype]
          by_cases hn : n.type = TOKEN_WORD
          · rw [if_pos hn]
            rw [pipe_count_cons, hn] at hp
            simp only [reduceCtorEq, if_false] at hp
            simp only [List.length_cons] at ha
            apply ih ts hlen2
            · exact (dangling_redirect_word t n ts hn).mp hd
            · omega
            · simp only; omega
          · rw [if_neg hn]
            exact ⟨_, rfl⟩

theorem finish_parse_error_iff (walk : Except ParseStop (List Command × Bool)) (c : Bool)
    (ct : CStr) :
    (∃ op, finish_parse walk c ct = .error op) ↔ ∃ op, walk = .error (.redirect op) := by
  unfold finish_parse
  cases walk with
  | error e =>
    cases e with
    | redirect op => simp
    | out_of_bounds w => simp
  | ok v =>
    obtain ⟨cmds, pl⟩ := v
    simp only
    cases terminate_args 0 cmds <;> simp

theorem wf_cond_type_fits (t : Token) (hwf : t.wf)
    (hc : t.type = TOKEN_AND ∨ t.type = TOKEN_OR) : t.value.length + 1 ≤ COND_TYPE_SIZE := by
  rcases hc with h | h
  · rw [hwf.1 h]; decide
  · rw [hwf.2 h]; decide

/-- A return of -1 from `parse_command` always comes from a redirection token
that is last or is followed by a token that is not a Word. -/
theorem parse_command_error_sound (tokens : List Token) (op : Char)
    (h : parse_command tokens = .error op) : dangling_redirect tokens := by
  cases tokens with
  | nil => simp [parse_command, parse_loop_nil, finish_parse, terminate_args, empty_command,
      MAX_TOKENS] at h
  | cons t ts =>
    simp only [parse_command] at h
    by_cases hc : t.type = TOKEN_AND ∨ t.type = TOKEN_OR
    · rw [if_pos hc] at h
      have hnr : ¬ is_redirect t := by
        rcases hc with h1 | h1 <;> simp [is_redirect, h1]
      split at h
      · obtain ⟨op1, h1⟩ := (finish_parse_error_iff _ _ _).mp ⟨op, h⟩
        exact (dangling_cons_skip t ts hnr).mpr
          (parse_loop_error_sound ts.length ts (Nat.le_refl _) _ _ _ op1 h1)
      · simp at h
    · rw [if_neg hc] at h
      obtain ⟨op1, h1⟩ := (finish_parse_error_iff _ _ _).mp ⟨op, h⟩
      exact parse_loop_error_sound (t :: ts).length (t :: ts) (Nat.le_refl _) _ _ _ op1 h1

/-- For the tokens of a line that fit the arrays (at most `MAX_TOKENS` tokens,
fewer than `MAX_PIPES` Pipe tokens, And/Or tokens as `tokenize` makes them)
`parse_command` returns -1 exactly when the sequence contains a redirection
token that is last or is followed by a token that is not a Word. -/
theorem parse_command_error_iff_within_capacity (tokens : List Token)
    (hlen : tokens.length ≤ MAX_TOKENS) (hpipes : pipe_count tokens < MAX_PIPES)
    (hwf : ∀ t ∈ tokens, t.wf) :
    ((parse_command tokens).ret = some (-1) ↔ dangling_redirect tokens) ∧
    ((∃ op, parse_command tokens = .error op) ↔ dangling_redirect tokens) := by
  have key : (∃ op, parse_command tokens = .error op) ↔ dangling_redirect tokens := by
    constructor
    · rintro ⟨op, h⟩
      exact parse_command_error_sound tokens op h
    · intro hd
      cases tokens with
      | nil => exact absurd hd dangling_nil
      | cons t ts =>
        simp only [parse_command]
        rw [pipe_count_cons] at hpipes
        simp only [List.length_cons] at hlen
        by_cases hc : t.type = TOKEN_AND ∨ t.type = TOKEN_OR
        · have hnr : ¬ is_redirect t := by
            rcases hc with h1 | h1 <;> simp [is_redirect, h1]
          rw [if_pos hc, if_pos (wf_cond_type_fits t (hwf t (List.mem_cons_self _ _)) hc)]
          apply (finish_parse_error_iff _ _ _).mpr
          apply parse_loop_dangling ts.length ts (Nat.le_refl _)
          · exact (dangling_cons_skip t ts hnr).mp hd
          · simp only [List.length_nil]; omega
          · simp only [empty_command, List.length_nil]; omega
        · rw [if_neg hc]
          apply (finish_parse_error_iff _ _ _).mpr
          apply parse_loop_dangling (t :: ts).length (t :: ts) (Nat.le_refl _) _ _ _ hd
          · rw [pipe_count_cons]
            simp only [List.length_nil]; omega
          · simp only [empty_command, List.length_nil, List.length_cons]; omega
  refine ⟨?_, key⟩
  rw [← key]
  cases parse_command tokens with
  | error op => simp [ParseResult.ret]
  | ok cmds pl c ct =>
    have h : (cmds.length : Int) ≠ -1 := by omega
    simp [ParseResult.ret, h]
  | out_of_bounds w => simp [ParseResult.ret]

theorem parse_command_error_iff_within_capacity_witness :
    (parse_command [⟨"cat".toList, TOKEN_WORD⟩, ⟨"<".toList, TOKEN_INPUT_REDIR⟩]).ret =
        some (-1) ↔
      dangling_redirect [⟨"cat".toList, TOKEN_WORD⟩, ⟨"<".toList, TOKEN_INPUT_REDIR⟩] :=
  (parse_command_error_iff_within_capacity
    [⟨"cat".toList, TOKEN_WORD⟩, ⟨"<".toList, TOKEN_INPUT_REDIR⟩] (by decide) (by decide)
    (by decide)).1

/-- On a return of -1 the iteration sets `last_exit_status` to 1, goes on to
the next line and does not call `execute_command` (lines 104-109). -/
theorem main_iteration_parse_error (exec : List Command → Bool → Int) (s : Int)
    (buffer : List Char) (tokens : List Token) (op : Char)
    (htok : tokenize buffer = .ok tokens) (hparse : parse_command tokens = .error op) :
    main_iteration exec s buffer =
      .ok { last_exit_status := 1, control := .next_line,
            events := [.parse_command_call tokens] } := by
  have hne : tokens.length ≠ 0 := by
    intro h0
    have : tokens = [] := List.length_eq_zero.mp h0
    rw [this] at hparse
    simp [parse_command, parse_loop_nil, finish_parse, terminate_args, empty_command,
      MAX_TOKENS] at hparse
  unfold main_iteration
  simp only [htok, hne, if_false, hparse]

set_option maxRecDepth 1000000 in
/-- Claim C3 fails on the code.  The line of 64 `|` followed by `<` (65
characters, 65 tokens) ends in a redirection token, so the claim asks for the
result -1 and for `last_exit_status` = 1; but at the 64th Pipe token
`parse_command` stores a stage at `cmd_array[64]`, outside the array of
`MAX_PIPES` = 64 stages, before the walk reaches the `<`, and neither the
function nor the iteration has a result.  With 63 `|` the result is -1. -/
theorem C3_stage_overflow_before_redirect_check :
    tokenize (List.replicate 64 '|' ++ ['<']) =
      .ok (List.replicate 64 { value := "|".toList, type := TOKEN_PIPE } ++
        [{ value := "<".toList, type := TOKEN_INPUT_REDIR }]) ∧
    dangling_redirect (List.replicate 64 { value := "|".toList, type := TOKEN_PIPE } ++
        [{ value := "<".toList, type := TOKEN_INPUT_REDIR }]) ∧
    parse_command (List.replicate 64 { value := "|".toList, type := TOKEN_PIPE } ++
        [{ value := "<".toList, type := TOKEN_INPUT_REDIR }]) =
      .out_of_bounds (.cmd_array 64) ∧
    (∀ (exec : List Command → Bool → Int) (s : Int),
      main_iteration exec s (List.replicate 64 '|' ++ ['<']) = .error (.cmd_array 64)) ∧
    parse_command (List.replicate 63 { value := "|".toList, type := TOKEN_PIPE } ++
        [{ value := "<".toList, type := TOKEN_INPUT_REDIR }]) = .error '<' := by
  have h1 : tokenize (List.replicate 64 '|' ++ ['<']) =
      .ok (List.replicate 64 { value := "|".toList, type := TOKEN_PIPE } ++
        [{ value := "<".toList, type := TOKEN_INPUT_REDIR }]) := by decide
  have h2 : parse_command (List.replicate 64 { value := "|".toList, type := TOKEN_PIPE } ++
        [{ value := "<".toList, type := TOKEN_INPUT_REDIR }]) =
      .out_of_bounds (.cmd_array 64) := by decide
  refine ⟨h1, ⟨_, _, [], rfl, Or.inl rfl, Or.inl rfl⟩, h2, ?_, by decide⟩
  intro exec s
  unfold main_iteration
  rw [h1]
  simp only [h2]
  rfl

theorem parse_loop_skip_conditional (t : Token) (post : List Token)
    (ht : t.type = TOKEN_AND ∨ t.type = TOKEN_OR) :
    ∀ (k : Nat) (pre : List Token), pre.length ≤ k →
      (∀ init l, pre = init ++ [l] → ¬ is_redirect l) →
      ∀ (done : List Command) (cur : Command) (pl : Bool),
        parse_loop (pre ++ t :: post) done cur pl = parse_loop (pre ++ post) done cur pl := by
  have base : ∀ (done : List Command) (cur : Command) (pl : Bool),
      parse_loop (t :: post) done cur pl = parse_loop post done cur pl := by
    intro done cur pl
    rcases ht with h | h
    · exact parse_loop_and t post done cur pl h
    · exact parse_loop_or t post done cur pl h
  intro k
  induction k with
  | zero =>
    intro pre hlen _ done cur pl
    have : pre = [] := List.length_eq_zero.mp (Nat.le_zero.mp hlen)
    subst this
    exact base done cur pl
  | succ k ih =>
    intro pre hlen hlast done cur pl
    cases pre with
    | nil => exact base done cur pl
    | cons a pre =>
      have hlen1 : pre.length ≤ k := by simpa using hlen
      have hlast1 : ∀ init l, pre = init ++ [l] → ¬ is_redirect l := by
        intro init l h
        exact hlast (a :: init) l (by simp [h])
      simp only [List.cons_append]
      cases htype : a.type with
      | TOKEN_PIPE =>
        rw [parse_loop_pipe a _ done cur pl htype, parse_loop_pipe a _ done cur pl htype,
          ih pre hlen1 hlast1]
      | TOKEN_WORD =>
        rw [parse_loop_word a _ done cur pl htype, parse_loop_word a _ done cur pl htype,
          ih pre hlen1 hlast1]
      | TOKEN_AND =>
        rw [parse_loop_and a _ done cur pl htype, parse_loop_and a _ done cur pl htype,
          ih pre hlen1 hlast1]
      | TOKEN_OR =>
        rw [parse_loop_or a _ done cur pl htype, parse_loop_or a _ done cur pl htype,
          ih pre hlen1 hlast1]
      | TOKEN_INPUT_REDIR =>
        cases pre with
        | nil => exact absurd (Or.inl htype) (hlast [] a rfl)
        | cons n pre =>
          have hlen2 : pre.length ≤ k := by
            simp at hlen1; omega
          have hlast2 : ∀ init l, pre = init ++ [l] → ¬ is_redirect l := by
            intro init l h
            exact hlast1 (n :: init) l (by simp [h])
          simp only [List.cons_append]
          rw [parse_loop_in_cons a n _ done cur pl htype,
            parse_loop_in_cons a n _ done cur pl htype, ih pre hlen2 hlast2]
      | TOKEN_OUTPUT_REDIR =>
        cases pre with
        | nil => exact absurd (Or.inr htype) (hlast [] a rfl)
        | cons n pre =>
          have hlen2 : pre.length ≤ k := by
            simp at hlen1; omega
          have hlast2 : ∀ init l, pre = init ++ [l] → ¬ is_redirect l := by
            intro init l h
            exact hlast1 (n :: init) l (by simp [h])
          simp only [List.cons_append]
          rw [parse_loop_out_cons a n _ done cur pl htype,
            parse_loop_out_cons a n _ done cur pl htype, ih pre hlen2 hlast2]

/-- Claim C9, as stated, fails: in `echo and b` the And token is not appended
to the argument list, so the line does not parse like the sequence in which
the token is a Word with the same text. -/
theorem C9_conditional_token_is_not_a_word :
    parse_command [⟨"echo".toList, TOKEN_WORD⟩, ⟨"and".toList, TOKEN_AND⟩,
        ⟨"b".toList, TOKEN_WORD⟩] =
      .ok [{ args := ["echo".toList, "b".toList], input_file := none, output_file := none }]
        false false [] ∧
    parse_command [⟨"echo".toList, TOKEN_WORD⟩, ⟨"and".toList, TOKEN_WORD⟩,
        ⟨"b".toList, TOKEN_WORD⟩] =
      .ok [{ args := ["echo".toList, "and".toList, "b".toList], input_file := none,
             output_file := none }] false false [] ∧
    parse_command [⟨"echo".toList, TOKEN_WORD⟩, ⟨"and".toList, TOKEN_AND⟩,
        ⟨"b".toList, TOKEN_WORD⟩] ≠
      parse_command [⟨"echo".toList, TOKEN_WORD⟩, ⟨"and".toList, TOKEN_WORD⟩,
        ⟨"b".toList, TOKEN_WORD⟩] := by
  decide

/-- Claim C9, amended.  An And or Or token at a position other than the first
and not directly after a `<` or `>` token is skipped by `parse_command`
(line 320): the sequence parses to the same result as the sequence without
that token. -/
theorem C9_conditional_token_elsewhere_is_skipped (pre post : List Token) (t : Token)
    (hpre : pre ≠ []) (ht : t.type = TOKEN_AND ∨ t.type = TOKEN_OR)
    (hlast : ∀ init l, pre = init ++ [l] → ¬ is_redirect l) :
    parse_command (pre ++ t :: post) = parse_command (pre ++ post) := by
  cases pre with
  | nil => exact absurd rfl hpre
  | cons a pre =>
    simp only [List.cons_append, parse_command]
    have hlast1 : ∀ init l, pre = init ++ [l] → ¬ is_redirect l := by
      intro init l h
      exact hlast (a :: init) l (by simp [h])
    rw [parse_loop_skip_conditional t post ht pre.length pre (Nat.le_refl _) hlast1]
    have h2 := parse_loop_skip_conditional t post ht (a :: pre).length (a :: pre)
      (Nat.le_refl _) hlast [] empty_command false
    simp only [List.cons_append] at h2
    rw [h2]

theorem C9_conditional_token_elsewhere_witness :
    parse_command ([⟨"echo".toList, TOKEN_WORD⟩] ++ ⟨"and".toList, TOKEN_AND⟩ ::
        [⟨"b".toList, TOKEN_WORD⟩]) =
      parse_command ([⟨"echo".toList, TOKEN_WORD⟩] ++ [⟨"b".toList, TOKEN_WORD⟩]) :=
  C9_conditional_token_elsewhere_is_skipped [⟨"echo".toList, TOKEN_WORD⟩]
    [⟨"b".toList, TOKEN_WORD⟩] ⟨"and".toList, TOKEN_AND⟩ (by decide) (Or.inl rfl)
    (by
      intro init l h
      cases init with
      | nil =>
        simp at h
        subst h
        simp [is_redirect]
      | cons x init =>
        cases init <;> simp at h)

/-- From the stage at index `MAX_PIPES - 1` on, the next Pipe token stores a
stage at index `MAX_PIPES`; nothing in the walk compares `cmd_idx` with
`MAX_PIPES`. -/
theorem parse_loop_pipes_overflow (n : Nat) : ∀ (done : List Command) (cur : Command)
    (pl : Bool), done.length + 1 ≤ MAX_PIPES → MAX_PIPES ≤ done.length + n →
    parse_loop (List.replicate n { value := "|".toList, type := TOKEN_PIPE }) done cur pl =
      .error (.out_of_bounds (.cmd_array MAX_PIPES)) := by
  induction n with
  | zero => intro done cur pl h1 h2; omega
  | succ n ih =>
    intro done cur pl h1 h2
    rw [List.replicate_succ, parse_loop_pipe _ _ done cur pl rfl]
    by_cases hcap : done.length + 1 < MAX_PIPES
    · rw [if_pos hcap]
      apply ih
      · simp only [List.length_append, List.length_singleton]; omega
      · simp only [List.length_append, List.length_singleton]; omega
    · rw [if_neg hcap]
      have : done.length + 1 = MAX_PIPES := by omega
      rw [this]

/-- Claim C10 fails on the code: a line of 64 `|` characters has 64 Pipe tokens
(they fit `token_array`), and `parse_command` does not report a capacity
failure: at the 64th Pipe token it initialises the stage at index 64, outside
the array of `MAX_PIPES` = 64 stages.  The same holds for every larger number
of Pipe tokens.  With 63 Pipe tokens it returns 64 stages. -/
theorem C10_no_stage_cap :
    tokenize (List.replicate 64 '|') =
      .ok (List.replicate 64 { value := "|".toList, type := TOKEN_PIPE }) ∧
    parse_command (List.replicate 64 { value := "|".toList, type := TOKEN_PIPE }) =
      .out_of_bounds (.cmd_array 64) ∧
    MAX_PIPES ≤ 64 ∧
    (∀ n, MAX_PIPES ≤ n →
      parse_command (List.replicate n { value := "|".toList, type := TOKEN_PIPE }) =
        .out_of_bounds (.cmd_array MAX_PIPES)) ∧
    parse_command (List.replicate 63 { value := "|".toList, type := TOKEN_PIPE }) =
      .ok (List.replicate 64 empty_command) true false [] := by
  refine ⟨by decide, by decide, by decide, ?_, by decide⟩
  intro n hn
  cases n with
  | zero => simp [MAX_PIPES] at hn
  | succ n =>
    have h := parse_loop_pipes_overflow (n + 1) [] empty_command false
      (by simp [MAX_PIPES]) (by simpa using hn)
    simp only [List.replicate_succ, parse_command, reduceCtorEq, or_self, if_false]
    rw [← List.replicate_succ, h]
    rfl

theorem finish_parse_ok (walk : Except ParseStop (List Command × Bool)) (c0 : Bool)
    (ct0 : CStr) (cmds : List Command) (pl c : Bool) (ct : CStr)
    (h : finish_parse walk c0 ct0 = .ok cmds pl c ct) :
    walk = .ok (cmds, pl) ∧ terminate_args 0 cmds = none ∧ c = c0 ∧ ct = ct0 := by
  unfold finish_parse at h
  cases walk with
  | error e => cases e <;> simp at h
  | ok v =>
    obtain ⟨a, b⟩ := v
    simp only at h
    cases hterm : terminate_args 0 a with
    | some w => rw [hterm] at h; simp at h
    | none =>
      rw [hterm] at h
      simp only [ParseResult.ok.injEq] at h
      obtain ⟨h1, h2, h3, h4⟩ := h
      subst h1 h2 h3 h4
      exact ⟨rfl, hterm, rfl, rfl⟩

theorem terminate_args_none : ∀ (cmds : List Command) (j : Nat),
    terminate_args j cmds = none → ∀ c ∈ cmds, c.args.length < MAX_TOKENS := by
  intro cmds
  induction cmds with
  | nil => intro j _ c hc; simp at hc
  | cons a cmds ih =>
    intro j h c hc
    unfold terminate_args at h
    by_cases ha : a.args.length < MAX_TOKENS
    · rw [if_pos ha] at h
      rcases List.mem_cons.mp hc with h1 | h1
      · rw [h1]; exact ha
      · exact ih (j + 1) h c h1
    · rw [if_neg ha] at h
      cases h

theorem parse_loop_stage_count : ∀ (k : Nat) (ts : List Token), ts.length ≤ k →
    ∀ (done : List Command) (cur : Command) (pl : Bool) (cmds : List Command) (pl1 : Bool),
      parse_loop ts done cur pl = .ok (cmds, pl1) → done.length + 1 ≤ MAX_PIPES →
      done.length + 1 ≤ cmds.length ∧ cmds.length ≤ MAX_PIPES := by
  intro k
  induction k with
  | zero =>
    intro ts hlen done cur pl cmds pl1 h hd
    have : ts = [] := List.length_eq_zero.mp (Nat.le_zero.mp hlen)
    subst this
    simp only [parse_loop_nil, Except.ok.injEq, Prod.mk.injEq] at h
    rw [← h.1]
    simp only [List.length_append, List.length_singleton]
    omega
  | succ k ih =>
    intro ts hlen done cur pl cmds pl1 h hd
    cases ts with
    | nil =>
      simp only [parse_loop_nil, Except.ok.injEq, Prod.mk.injEq] at h
      rw [← h.1]
      simp only [List.length_append, List.length_singleton]
      omega
    | cons t ts =>
      have hlen1 : ts.length ≤ k := by simpa using hlen
      cases htype : t.type with
      | TOKEN_PIPE =>
        rw [parse_loop_pipe t ts done cur pl htype] at h
        split at h
        · have := ih ts hlen1 _ _ _ cmds pl1 h
            (by simp only [List.length_append, List.length_singleton]; omega)
          simp only [List.length_append, List.length_singleton] at this
          omega
        · simp at h
      | TOKEN_WORD =>
        rw [parse_loop_word t ts done cur pl htype] at h
        split at h
        · exact ih ts hlen1 _ _ _ cmds pl1 h hd
        · simp at h
      | TOKEN_AND =>
        rw [parse_loop_and t ts done cur pl htype] at h
        exact ih ts hlen1 _ _ _ cmds pl1 h hd
      | TOKEN_OR =>
        rw [parse_loop_or t ts done cur pl htype] at h
        exact ih ts hlen1 _ _ _ cmds pl1 h hd
      | TOKEN_INPUT_REDIR =>
        cases ts with
        | nil => simp [parse_loop_in_nil t done cur pl htype] at h
        | cons n ts =>
          have hlen2 : ts.length ≤ k := by
            simp at hlen1; omega
          rw [parse_loop_in_cons t n ts done cur pl htype] at h
          split at h
          · exact ih ts hlen2 _ _ _ cmds pl1 h hd
          · simp at h
      | TOKEN_OUTPUT_REDIR =>
        cases ts with
        | nil => simp [parse_loop_out_nil t done cur pl htype] at h
        | cons n ts =>
          have hlen2 : ts.length ≤ k := by
            simp at hlen1; omega
          rw [parse_loop_out_cons t n ts done cur pl htype] at h
          split at h
          · exact ih ts hlen2 _ _ _ cmds pl1 h hd
          · simp at h

/-- When `parse_command` has stages to return, there are between 1 and
`MAX_PIPES` of them and each has fewer than `MAX_TOKENS` arguments: the arrays
`pipes` and `pids` of `execute_command` (lines 408 and 416, `MAX_PIPES` entries
each) are then indexed within their bounds. -/
theorem parse_command_stage_count (tokens : List Token) (cmds : List Command)
    (pl c : Bool) (ct : CStr) (h : parse_command tokens = .ok cmds pl c ct) :
    1 ≤ cmds.length ∧ cmds.length ≤ MAX_PIPES ∧
    ∀ cmd ∈ cmds, cmd.args.length < MAX_TOKENS := by
  have key : ∀ (ts : List Token) (c0 : Bool) (ct0 : CStr),
      finish_parse (parse_loop ts [] empty_command false) c0 ct0 = .ok cmds pl c ct →
      1 ≤ cmds.length ∧ cmds.length ≤ MAX_PIPES ∧
      ∀ cmd ∈ cmds, cmd.args.length < MAX_TOKENS := by
    intro ts c0 ct0 hf
    obtain ⟨h1, h2, _, _⟩ := finish_parse_ok _ _ _ _ _ _ _ hf
    have := parse_loop_stage_count ts.length ts (Nat.le_refl _) [] empty_command false
      cmds pl h1 (by simp [MAX_PIPES])
    simp only [List.length_nil, Nat.zero_add] at this
    exact ⟨this.1, this.2, terminate_args_none cmds 0 h2⟩
  cases tokens with
  | nil => exact key [] false [] h
  | cons t ts =>
    simp only [parse_command] at h
    split at h
    · split at h
      · exact key ts true t.value h
      · simp at h
    · exact key (t :: ts) false [] h

theorem parse_command_stage_count_witness :
    1 ≤ [simple_command ["ls"]].length ∧ [simple_command ["ls"]].length ≤ MAX_PIPES ∧
    ∀ cmd ∈ [simple_command ["ls"]], cmd.args.length < MAX_TOKENS :=
  parse_command_stage_count [⟨"ls".toList, TOKEN_WORD⟩] [simple_command ["ls"]] false false
    [] (by decide)

/-! ## Line controller facts -/

theorem main_iteration_parsed (exec : List Command → Bool → Int) (s : Int)
    (buffer : List Char) (t : Token) (ts : List Token) (cmds : List Command)
    (pl c : Bool) (ct : CStr) (htok : tokenize buffer = .ok (t :: ts))
    (hparse : parse_command (t :: ts) = .ok cmds pl c ct) :
    main_iteration exec s buffer =
      if c = true ∧ ct = "and".toList ∧ s ≠ 0 then
        .ok { last_exit_status := s, control := .next_line,
              events := [.parse_command_call (t :: ts)] }
      else if c = true ∧ ct = "or".toList ∧ s = 0 then
        .ok { last_exit_status := s, control := .next_line,
              events := [.parse_command_call (t :: ts)] }
      else .ok (run_parsed exec s cmds pl [.parse_command_call (t :: ts)]) := by
  unfold main_iteration
  simp only [htok, hparse]
  simp

theorem parse_command_conditional (t : Token) (ts : List Token) (cmds : List Command)
    (pl c : Bool) (ct : CStr) (ht : t.type = TOKEN_AND ∨ t.type = TOKEN_OR)
    (hparse : parse_command (t :: ts) = .ok cmds pl c ct) :
    c = true ∧ ct = t.value ∧ parse_loop ts [] empty_command false = .ok (cmds, pl) ∧
      terminate_args 0 cmds = none := by
  simp only [parse_command, if_pos ht] at hparse
  split at hparse
  · obtain ⟨h1, h2, h3, h4⟩ := finish_parse_ok _ _ _ _ _ _ _ hparse
    exact ⟨h3, h4, h1, h2⟩
  · simp at hparse

theorem parse_command_unconditional (t : Token) (ts : List Token) (cmds : List Command)
    (pl c : Bool) (ct : CStr) (ht : ¬ (t.type = TOKEN_AND ∨ t.type = TOKEN_OR))
    (hparse : parse_command (t :: ts) = .ok cmds pl c ct) :
    c = false := by
  simp only [parse_command, if_neg ht] at hparse
  exact (finish_parse_ok _ _ _ _ _ _ _ hparse).2.2.1

/-- What Claim C4 says, for the lines whose tokens fit `token_array` and whose
stages and arguments fit their arrays (`tokenize` and `parse_command` both
have a result).  If the first token is And and `last_exit_status` is nonzero,
or it is Or and `last_exit_status` is 0, the iteration's only event is the
call of `parse_command`: `execute_command` is not called, the loop goes on to
the next line (an `exit` or `die` in the line is not honoured) and
`last_exit_status` is unchanged.  In the two complementary cases the iteration
is `run_parsed` of the stages (lines 128-152), which is also what the
iteration of a line without a leading And/Or is; and when what follows the
leading token does not itself start with And/Or, those stages are the ones the
rest of the line parses to on its own. -/
theorem conditional_skip_within_capacity (exec : List Command → Bool → Int) (s : Int)
    (buffer : List Char) (t : Token) (ts : List Token) (cmds : List Command)
    (pl c : Bool) (ct : CStr) (htok : tokenize buffer = .ok (t :: ts))
    (hparse : parse_command (t :: ts) = .ok cmds pl c ct) :
    (t.type = TOKEN_AND → s ≠ 0 →
      main_iteration exec s buffer =
        .ok { last_exit_status := s, control := .next_line,
              events := [.parse_command_call (t :: ts)] }) ∧
    (t.type = TOKEN_OR → s = 0 →
      main_iteration exec s buffer =
        .ok { last_exit_status := 0, control := .next_line,
              events := [.parse_command_call (t :: ts)] }) ∧
    (t.type = TOKEN_AND → s = 0 →
      main_iteration exec s buffer =
        .ok (run_parsed exec s cmds pl [.parse_command_call (t :: ts)])) ∧
    (t.type = TOKEN_OR → s ≠ 0 →
      main_iteration exec s buffer =
        .ok (run_parsed exec s cmds pl [.parse_command_call (t :: ts)])) ∧
    (t.type ≠ TOKEN_AND → t.type ≠ TOKEN_OR →
      main_iteration exec s buffer =
        .ok (run_parsed exec s cmds pl [.parse_command_call (t :: ts)])) ∧
    (t.type = TOKEN_AND ∨ t.type = TOKEN_OR →
      (∀ u rest, ts = u :: rest → u.type ≠ TOKEN_AND ∧ u.type ≠ TOKEN_OR) →
      parse_command ts = .ok cmds pl false []) := by
  have hmain := main_iteration_parsed exec s buffer t ts cmds pl c ct htok hparse
  have hwf : t.wf := tokenize_wf buffer (t :: ts) htok t (List.mem_cons_self _ _)
  refine ⟨?_, ?_, ?_, ?_, ?_, ?_⟩
  · intro ht hs
    obtain ⟨hc, hct, _⟩ := parse_command_conditional t ts cmds pl c ct (Or.inl ht) hparse
    rw [hmain, if_pos ⟨hc, by rw [hct]; exact hwf.1 ht, hs⟩]
  · intro ht hs
    obtain ⟨hc, hct, _⟩ := parse_command_conditional t ts cmds pl c ct (Or.inr ht) hparse
    have hor : ct = "or".toList := by rw [hct]; exact hwf.2 ht
    have hna : ¬ (c = true ∧ ct = "and".toList ∧ s ≠ 0) := fun h => h.2.2 hs
    rw [hmain, if_neg hna, if_pos ⟨hc, hor, hs⟩, hs]
  · intro ht hs
    obtain ⟨hc, hct, _⟩ := parse_command_conditional t ts cmds pl c ct (Or.inl ht) hparse
    have hand : ct = "and".toList := by rw [hct]; exact hwf.1 ht
    have h1 : ¬ (c = true ∧ ct = "and".toList ∧ s ≠ 0) := fun h => h.2.2 hs
    have h2 : ¬ (c = true ∧ ct = "or".toList ∧ s = 0) := by
      rintro ⟨_, h, _⟩
      rw [hand] at h
      exact absurd h (by decide)
    rw [hmain, if_neg h1, if_neg h2]
  · intro ht hs
    obtain ⟨hc, hct, _⟩ := parse_command_conditional t ts cmds pl c ct (Or.inr ht) hparse
    have hor : ct = "or".toList := by rw [hct]; exact hwf.2 ht
    have h1 : ¬ (c = true ∧ ct = "and".toList ∧ s ≠ 0) := by
      rintro ⟨_, h, _⟩
      rw [hor] at h
      exact absurd h (by decide)
    have h2 : ¬ (c = true ∧ ct = "or".toList ∧ s = 0) := fun h => hs h.2.2
    rw [hmain, if_neg h1, if_neg h2]
  · intro h1 h2
    have hc := parse_command_unconditional t ts cmds pl c ct
      (by rintro (h | h); exact h1 h; exact h2 h) hparse
    rw [hmain, hc]
    simp
  · intro ht hts
    obtain ⟨_, _, hloop, hterm⟩ := parse_command_conditional t ts cmds pl c ct ht hparse
    cases ts with
    | nil => simp [parse_command, hloop, finish_parse, hterm]
    | cons u rest =>
      have hu := hts u rest rfl
      have hnc : ¬ (u.type = TOKEN_AND ∨ u.type = TOKEN_OR) := by
        rintro (h | h); exact hu.1 h; exact hu.2 h
      simp only [parse_command, if_neg hnc, hloop, finish_parse, hterm]

theorem conditional_skip_within_capacity_witness :
    main_iteration (fun _ _ => 0) 1 "and exit\n".toList =
      .ok { last_exit_status := 1, control := .next_line,
            events := [.parse_command_call
              (⟨"and".toList, TOKEN_AND⟩ :: [⟨"exit".toList, TOKEN_WORD⟩])] } :=
  (conditional_skip_within_capacity (fun _ _ => 0) 1 "and exit\n".toList
    ⟨"and".toList, TOKEN_AND⟩ [⟨"exit".toList, TOKEN_WORD⟩]
    [{ args := ["exit".toList], input_file := none, output_file := none }] false true
    "and".toList (by decide) (by decide)).1 rfl (by decide)

set_option maxRecDepth 1000000 in
/-- Claim C4 fails on the code.  The line `and` followed by 257 one-letter
words (518 characters) starts with an And token, so read with a nonzero
`last_exit_status` the claim asks for a skipped line; but `tokenize` stores
its 257th token at `token_array[256]`, outside the array of `MAX_TOKENS` =
256 tokens, and for no `execute_command` and no `last_exit_status` does the
iteration have a result: the skip is not guaranteed.  The same line with 255
words, read with `last_exit_status` = 1, is skipped. -/
theorem C4_token_array_overflow :
    tokenize ("and ".toList ++ (List.replicate 257 "w ".toList).flatten) =
      .error (.token_array 256) ∧
    (∀ (exec : List Command → Bool → Int) (s : Int),
      main_iteration exec s ("and ".toList ++ (List.replicate 257 "w ".toList).flatten) =
        .error (.token_array 256)) ∧
    main_iteration (fun _ _ => 0) 1
      ("and ".toList ++ (List.replicate 255 "w ".toList).flatten) =
      .ok { last_exit_status := 1, control := .next_line,
            events := [.parse_command_call
              ({ value := "and".toList, type := TOKEN_AND } ::
                List.replicate 255 { value := "w".toList, type := TOKEN_WORD })] } := by
  have h : tokenize ("and ".toList ++ (List.replicate 257 "w ".toList).flatten) =
      .error (.token_array 256) := by decide
  refine ⟨h, ?_, by decide⟩
  intro exec s
  unfold main_iteration
  rw [h]

/-! ## Orchestrator facts -/

theorem create_pipes_no_fork (env : Env) : ∀ (k i : Nat),
    fork_calls (create_pipes env i k).1 = 0 := by
  intro k
  induction k with
  | zero => intro i; rfl
  | succ k ih =>
    intro i
    unfold create_pipes
    by_cases h : env.pipe_ok i = true
    · rw [if_pos h]
      have := ih (i + 1)
      simp only [fork_calls] at this ⊢
      rw [List.countP_cons_of_neg]
      · exact this
      · simp [is_fork_call]
    · rw [if_neg h]
      rfl

theorem create_pipes_all_ok (env : Env) : ∀ (k i : Nat),
    (∀ j, i ≤ j → j < i + k → env.pipe_ok j = true) →
    create_pipes env i k = ((List.range' i k).map Event.pipe_created, true) := by
  intro k
  induction k with
  | zero => intro i _; rfl
  | succ k ih =>
    intro i h
    unfold create_pipes
    rw [if_pos (h i (Nat.le_refl _) (by omega)),
      ih (i + 1) (fun j h1 h2 => h j (by omega) (by omega))]
    simp [List.range'_succ]

theorem close_pipes_no_fork (cmd_count : Nat) : fork_calls (close_pipes cmd_count) = 0 := by
  unfold fork_calls close_pipes
  rw [List.countP_eq_zero]
  intro e he
  simp only [List.mem_flatMap, List.mem_range] at he
  obtain ⟨j, _, hj⟩ := he
  simp at hj
  rcases hj with h | h <;> subst h <;> simp [is_fork_call]

theorem fork_calls_append (a b : List Event) :
    fork_calls (a ++ b) = fork_calls a + fork_calls b := by
  simp [fork_calls]

/-- Claim C5.  Take a pipeline on the general path of `execute_command` whose
first stage has the argument 0 `name`, for which `find_program` returns
not-found.  Then `execute_command` returns the failure status -1 and `fork` is
called zero times, whatever the pipe calls do; and when the pipes were
allocated, so that the spawn loop (lines 419-438) is reached, the trace is the
pipe creations, the failed lookup of `name`, the message
"name: command not found" and the closing of the pipes, and nothing else. -/
theorem C5_first_stage_not_found (env : Env) (c : Command) (rest : List Command)
    (is_pipeline : Bool) (name : CStr) (others : List CStr)
    (hgeneral : builtin_command (c :: rest) is_pipeline = none)
    (hargs : c.args = name :: others)
    (hnotfound : find_program env.access_x_ok name = none) :
    (execute_command env (c :: rest) is_pipeline).ret = -1 ∧
    (execute_command env (c :: rest) is_pipeline).ret ≠ 0 ∧
    fork_calls (execute_command env (c :: rest) is_pipeline).trace = 0 ∧
    ((∀ j, j < rest.length → env.pipe_ok j = true) →
      (execute_command env (c :: rest) is_pipeline).trace =
        (List.range' 0 rest.length).map Event.pipe_created ++
          (Event.find_program_call name false ::
            Event.stderr (name ++ ": command not found\n".toList) ::
              close_pipes (rest.length + 1))) := by
  have hspawn : spawn_loop env (rest.length + 1) 0 (c :: rest) [] =
      (Event.find_program_call name false ::
        Event.stderr (name ++ ": command not found\n".toList) ::
          close_pipes (rest.length + 1), .inl (-1)) := by
    unfold spawn_loop
    simp only [hargs, hnotfound]
  have hexec : execute_command env (c :: rest) is_pipeline =
      if (create_pipes env 0 rest.length).2 = true then
        { ret := -1
          trace := (create_pipes env 0 rest.length).1 ++
            (Event.find_program_call name false ::
              Event.stderr (name ++ ": command not found\n".toList) ::
                close_pipes (rest.length + 1)) }
      else { ret := -1, trace := (create_pipes env 0 rest.length).1 } := by
    unfold execute_command
    simp only [hgeneral, List.length_cons, Nat.add_sub_cancel, hspawn]
    cases (create_pipes env 0 rest.length).2 <;> simp
  have hret : (execute_command env (c :: rest) is_pipeline).ret = -1 := by
    rw [hexec]
    split <;> rfl
  refine ⟨hret, by rw [hret]; decide, ?_, ?_⟩
  · rw [hexec]
    split
    · simp only [fork_calls_append, create_pipes_no_fork]
      have h2 := close_pipes_no_fork (rest.length + 1)
      simp only [fork_calls] at h2 ⊢
      rw [List.countP_cons_of_neg, List.countP_cons_of_neg]
      · simpa using h2
      · simp [is_fork_call]
      · simp [is_fork_call]
    · exact create_pipes_no_fork env _ _
  · intro hpipes
    have hall := create_pipes_all_ok env rest.length 0
      (fun j _ h2 => hpipes j (by omega))
    rw [hexec, hall]
    simp

theorem C5_first_stage_not_found_witness :
    (execute_command sample_env [simple_command ["nosuch"], simple_command ["wc"]] true).ret
      = -1 :=
  (C5_first_stage_not_found sample_env (simple_command ["nosuch"]) [simple_command ["wc"]]
    true "nosuch".toList [] (by decide) (by decide) (by decide)).1

/-- Claim C6 fails on the code.  In `ls | nosuch` the first stage is spawned
(child 100), the lookup of the second fails, and `execute_command` returns
after closing the pipe without waiting for the child.  When `fork` fails for
the second stage it returns with the pipe still open and the first child not
waited on; when the second `pipe` call of a three-stage pipeline fails it
returns with the first pipe still open.  The complete run of `ls | wc` closes
every pipe and waits for every child. -/
theorem C6_early_returns_leak :
    (execute_command sample_env [simple_command ["ls"], simple_command ["nosuch"]] true).trace =
      [.pipe_created 0, .find_program_call "ls".toList true, .forked 0 100,
       .find_program_call "nosuch".toList false,
       .stderr "nosuch: command not found\n".toList, .close_read 0, .close_write 0] ∧
    children_waited
      (execute_command sample_env [simple_command ["ls"], simple_command ["nosuch"]]
        true).trace = false ∧
    (execute_command { sample_env with fork := fun i => if i = 0 then some 100 else none }
        [simple_command ["ls"], simple_command ["wc"]] true).trace =
      [.pipe_created 0, .find_program_call "ls".toList true, .forked 0 100,
       .find_program_call "wc".toList true, .fork_failed 1, .perror "fork".toList] ∧
    pipes_closed
      (execute_command { sample_env with fork := fun i => if i = 0 then some 100 else none }
        [simple_command ["ls"], simple_command ["wc"]] true).trace = false ∧
    children_waited
      (execute_command { sample_env with fork := fun i => if i = 0 then some 100 else none }
        [simple_command ["ls"], simple_command ["wc"]] true).trace = false ∧
    (execute_command { sample_env with pipe_ok := fun i => decide (i = 0) }
        [simple_command ["ls"], simple_command ["wc"], simple_command ["wc"]] true).trace =
      [.pipe_created 0, .pipe_failed 1, .perror "pipe".toList] ∧
    pipes_closed
      (execute_command { sample_env with pipe_ok := fun i => decide (i = 0) }
        [simple_command ["ls"], simple_command ["wc"], simple_command ["wc"]]
        true).trace = false ∧
    pipes_closed
      (execute_command sample_env [simple_command ["ls"], simple_command ["wc"]]
        true).trace = true ∧
    children_waited
      (execute_command sample_env [simple_command ["ls"], simple_command ["wc"]]
        true).trace = true := by
  decide

/-- Claim C7 fails on the code.  In `true |` the last stage has no argument and
is never spawned, but the wait loop still passes the unassigned `pids[1]` to
`waitpid` and takes the result from `status`: the return value is whatever
that indeterminate status decodes to, 0 in one environment and 1 in another
that differs in nothing else, although no last stage terminated. -/
theorem C7_unspawned_last_stage :
    (execute_command sample_env [simple_command ["true"], simple_command []] true).trace =
      [.pipe_created 0, .find_program_call "true".toList true, .forked 0 100,
       .close_read 0, .close_write 0, .waitpid 100, .waitpid_uninitialised 1] ∧
    (execute_command sample_env [simple_command ["true"], simple_command []] true).ret = 0 ∧
    (execute_command { sample_env with indeterminate := fun _ => .abnormal 11 }
      [simple_command ["true"], simple_command []] true).ret = 1 := by
  decide

theorem spawn_loop_all_spawned (env : Env) (cmd_count : Nat) (pid : Nat → Nat) :
    ∀ (cmds : List Command) (i : Nat) (pids : List (Option Nat)),
      (∀ c ∈ cmds, ∃ name rest, c.args = name :: rest ∧
        find_program env.access_x_ok name ≠ none) →
      (∀ j, i ≤ j → j < i + cmds.length → env.fork j = some (pid j)) →
      (spawn_loop env cmd_count i cmds pids).2 =
        .inr (pids ++ (List.range' i cmds.length).map (fun j => some (pid j))) := by
  intro cmds
  induction cmds with
  | nil => intro i pids _ _; simp [spawn_loop]
  | cons c cmds ih =>
    intro i pids hc hf
    obtain ⟨name, rest, hargs, hfound⟩ := hc c (List.mem_cons_self _ _)
    obtain ⟨path, hpath⟩ := Option.ne_none_iff_exists'.mp hfound
    have hfork := hf i (Nat.le_refl _) (by simp)
    unfold spawn_loop
    simp only [hargs, hpath, hfork]
    rw [ih (i + 1) _ (fun c1 h1 => hc c1 (List.mem_cons_of_mem _ h1))
      (fun j h1 h2 => hf j (by omega) (by simp; omega))]
    simp [List.range'_succ]

theorem wait_loop_all_spawned (env : Env) (cmd_count : Nat) (pid : Nat → Nat) :
    ∀ (k i : Nat) (last_status : Int),
      (wait_loop env cmd_count i ((List.range' i k).map (fun j => some (pid j)))
        false last_status).2 =
        if i ≤ cmd_count - 1 ∧ cmd_count - 1 < i + k then
          status_code (env.child_status (pid (cmd_count - 1)))
        else last_status := by
  intro k
  induction k with
  | zero =>
    intro i last_status
    have : ¬ (i ≤ cmd_count - 1 ∧ cmd_count - 1 < i + 0) := by omega
    rw [if_neg this]
    rfl
  | succ k ih =>
    intro i last_status
    simp only [List.range'_succ, List.map_cons]
    unfold wait_loop
    simp only [Option.isNone_some, Bool.or_false, Bool.false_eq_true, if_false]
    rw [ih (i + 1)]
    by_cases h1 : i = cmd_count - 1
    · have h2 : ¬ (i + 1 ≤ cmd_count - 1 ∧ cmd_count - 1 < i + 1 + k) := by omega
      have h3 : i ≤ cmd_count - 1 ∧ cmd_count - 1 < i + (k + 1) := by omega
      rw [if_neg h2, if_pos h3, if_pos h1, h1]
    · by_cases h2 : i + 1 ≤ cmd_count - 1 ∧ cmd_count - 1 < i + 1 + k
      · have h3 : i ≤ cmd_count - 1 ∧ cmd_count - 1 < i + (k + 1) := by omega
        rw [if_pos h2, if_pos h3]
      · have h3 : ¬ (i ≤ cmd_count - 1 ∧ cmd_count - 1 < i + (k + 1)) := by omega
        rw [if_neg h2, if_neg h3, if_neg h1]

/-- When every stage has an argument, every pipe is created, every program is
found and every `fork` succeeds, `execute_command` reaches its wait loop and
returns 0 exactly when the child of the last stage exited with code 0, and 1
otherwise, whatever the other children did. -/
theorem execute_command_status_of_last_stage (env : Env) (commands : List Command)
    (is_pipeline : Bool) (pid : Nat → Nat) (hne : commands ≠ [])
    (hgeneral : builtin_command commands is_pipeline = none)
    (hstages : ∀ c ∈ commands, ∃ name rest, c.args = name :: rest ∧
      find_program env.access_x_ok name ≠ none)
    (hpipes : ∀ j, j < commands.length - 1 → env.pipe_ok j = true)
    (hfork : ∀ j, j < commands.length → env.fork j = some (pid j)) :
    (execute_command env commands is_pipeline).ret =
      status_code (env.child_status (pid (commands.length - 1))) ∧
    ((execute_command env commands is_pipeline).ret = 0 ↔
      env.child_status (pid (commands.length - 1)) = .exited 0) ∧
    ((execute_command env commands is_pipeline).ret ≠ 0 →
      (execute_command env commands is_pipeline).ret = 1) := by
  have hlen : 0 < commands.length := List.length_pos.mpr hne
  have hp := create_pipes_all_ok env (commands.length - 1) 0
    (fun j _ h2 => hpipes j (by omega))
  have hs := spawn_loop_all_spawned env commands.length pid commands 0 [] hstages
    (fun j _ h2 => hfork j (by omega))
  have hw := wait_loop_all_spawned env commands.length pid commands.length 0 0
  have hcond : 0 ≤ commands.length - 1 ∧ commands.length - 1 < 0 + commands.length := by
    omega
  rw [if_pos hcond] at hw
  have hret : (execute_command env commands is_pipeline).ret =
      status_code (env.child_status (pid (commands.length - 1))) := by
    unfold execute_command
    simp only [hgeneral, hp, hs, List.nil_append]
    simpa using hw
  refine ⟨hret, ?_, ?_⟩
  · rw [hret]
    unfold status_code
    split <;> simp_all
  · rw [hret]
    unfold status_code
    split <;> simp

theorem execute_command_status_of_last_stage_witness :
    (execute_command sample_env [simple_command ["ls"], simple_command ["wc"]] true).ret =
      status_code (sample_env.child_status 101) :=
  (execute_command_status_of_last_stage sample_env
    [simple_command ["ls"], simple_command ["wc"]] true (fun i => 100 + i) (by decide)
    (by decide)
    (by
      intro c hc
      simp only [List.mem_cons, List.mem_singleton, List.not_mem_nil, or_false] at hc
      rcases hc with h | h <;> subst h
      · exact ⟨"ls".toList, [], rfl, by decide⟩
      · exact ⟨"wc".toList, [], rfl, by decide⟩)
    (fun _ _ => rfl) (fun _ _ => rfl)).1

/-- After an executed line `last_exit_status` is 0 or 1 (line 148). -/
theorem run_parsed_status (exec : List Command → Bool → Int) (s : Int)
    (commands : List Command) (is_pipeline : Bool) (events : List MainEvent) :
    (run_parsed exec s commands is_pipeline events).control = .next_line →
    (run_parsed exec s commands is_pipeline events).last_exit_status = 0 ∨
    (run_parsed exec s commands is_pipeline events).last_exit_status = 1 := by
  intro h
  have hrun : ∀ r : Int, (if r = 0 then (0 : Int) else 1) = 0 ∨
      (if r = 0 then (0 : Int) else 1) = 1 := by
    intro r
    by_cases hr : r = 0 <;> simp [hr]
  cases commands with
  | nil => exact hrun _
  | cons c cs =>
    cases hargs : c.args with
    | nil =>
      simp only [run_parsed, hargs]
      exact hrun _
    | cons a others =>
      by_cases h1 : a = "exit".toList
      · simp [run_parsed, hargs, h1] at h
      · by_cases h2 : a = "die".toList
        · simp [run_parsed, hargs, h1, h2] at h
        · simp only [run_parsed, hargs, h1, h2, if_false]
          exact hrun _

/-! ## Child wiring facts -/

/-- When the declared `input_file` cannot be opened the child reports it and
exits: it neither falls back to the pipe nor runs the program. -/
theorem child_input_open_failure (open_ok : CStr → Bool) (execv_ok r : Bool) (cmd : Command)
    (i cmd_count : Nat) (prog_path f : CStr) (hf : cmd.input_file = some f)
    (hfail : open_ok f = false) :
    child_ops open_ok execv_ok r cmd i cmd_count prog_path =
      [.open_rdonly f false, .perror f, .exit_failure] := by
  simp [child_ops, child_stdin, hf, hfail]

end Mysh
